import Mathlib

/-!
# Verification of the SQL formatting / highlighting engine

Shallow embedding of the two source files of the repository:

* `formatter.py` — class `SQLFormatter`: coarse tokenizer (`_tokenize`),
  compound-keyword merger (`_merge_compounds`), line formatter
  (`_format_tokens`), lightweight syntax checker (`_check_syntax`) and the
  public entry point `format_and_check`.
* `sql_tester.py` — function `highlight_sql_tokenize`: the classifying
  lexer used for syntax highlighting.

Strings are modelled as `List Char` (`Str`).  Python's ASCII-relevant
behaviour of `str.upper`, `str.split`, `str.strip` is modelled on ASCII
whitespace and ASCII letters, which covers every character class the code
manipulates.
-/

namespace SqlTester

/-- A Python string, modelled as a list of characters. -/
abbrev Str := List Char

/-- Shorthand turning a Lean string literal into `Str`. -/
def L (s : String) : Str := s.toList

/-- ASCII uppercase of one character (the effect of Python `str.upper` on
the ASCII range; characters outside `a`–`z` are returned unchanged). -/
def upChar (c : Char) : Char :=
  if 97 ≤ c.toNat ∧ c.toNat ≤ 122 then Char.ofNat (c.toNat - 32) else c

/-- Uppercase of a whole string (`str.upper`). -/
def upStr (s : Str) : Str := s.map upChar

/-- Python `str.split()` / `str.strip()` whitespace (ASCII):
space, tab, newline, carriage return, vertical tab, form feed. -/
def isSpC (c : Char) : Bool :=
  c = ' ' || c = '\t' || c = '\n' || c = '\r' || c.toNat = 11 || c.toNat = 12

/-- Python `str.lstrip()`. -/
def lstripWs (s : Str) : Str := s.dropWhile isSpC

/-- Python `str.rstrip()`. -/
def rstripWs (s : Str) : Str := (s.reverse.dropWhile isSpC).reverse

/-- Python `str.strip()`. -/
def stripWs (s : Str) : Str := rstripWs (lstripWs s)

/-- The four structural characters padded by `SQLFormatter._tokenize`
(regex `([(),;])`). -/
def isPadC (c : Char) : Bool :=
  c = '(' || c = ')' || c = ',' || c = ';'

/-- `re.sub(r"([(),;])", r" \1 ", sql)`: surround each structural
character with spaces. -/
def padF (s : Str) : Str :=
  s.flatMap (fun c => if isPadC c then [' ', c, ' '] else [c])

/-- Helper for `splitWs`: accumulates the current word. -/
def splitWsAux (cur : Str) : Str → List Str
  | [] => if cur = [] then [] else [cur]
  | c :: cs =>
    if isSpC c then
      (if cur = [] then [] else [cur]) ++ splitWsAux [] cs
    else
      splitWsAux (cur ++ [c]) cs

/-- Python `str.split()` with no arguments: split on runs of whitespace,
dropping empty words. -/
def splitWs (s : Str) : List Str := splitWsAux [] s

namespace SQLFormatter

/-- `SQLFormatter.KEYWORDS`: compound + single keywords recognized and
uppercased by the formatter. -/
def KEYWORDS : List Str :=
  [ L "SELECT", L "FROM", L "WHERE", L "GROUP BY", L "ORDER BY", L "HAVING",
    L "INSERT INTO", L "VALUES", L "UPDATE", L "SET", L "DELETE",
    L "CREATE TABLE", L "DROP TABLE", L "ALTER TABLE", L "TRUNCATE TABLE",
    L "PRIMARY KEY", L "FOREIGN KEY", L "REFERENCES", L "CONSTRAINT",
    L "IF EXISTS", L "NOT NULL", L "UNIQUE", L "CHECK",
    L "JOIN", L "LEFT JOIN", L "RIGHT JOIN", L "INNER JOIN", L "OUTER JOIN", L "ON",
    L "AS", L "DISTINCT", L "LIMIT", L "OFFSET", L "UNION", L "ALL",
    L "GRANT", L "REVOKE", L "TO", L "WITH", L "OPTION",
    L "COMMIT", L "ROLLBACK", L "SAVEPOINT", L "TRANSACTION", L "BEGIN" ]

/-- `SQLFormatter.CLAUSE_KEYWORDS`: clause starters that begin a new line. -/
def CLAUSE_KEYWORDS : List Str :=
  [ L "SELECT", L "FROM", L "WHERE", L "GROUP BY", L "ORDER BY", L "HAVING",
    L "VALUES", L "SET", L "INSERT INTO", L "UPDATE", L "DELETE",
    L "CREATE TABLE", L "DROP TABLE", L "ALTER TABLE", L "TRUNCATE TABLE",
    L "GRANT", L "REVOKE" ]

/-- `SQLFormatter.VALID_STARTS`: valid first token of a statement. -/
def VALID_STARTS : List Str :=
  [ L "SELECT", L "INSERT INTO", L "UPDATE", L "DELETE",
    L "CREATE TABLE", L "DROP TABLE", L "ALTER TABLE", L "TRUNCATE TABLE",
    L "GRANT", L "REVOKE", L "COMMIT", L "ROLLBACK", L "BEGIN" ]

/-- Clause keywords that put the formatter in a comma-breaks-lines list
context (`{"SELECT", "INSERT INTO", "VALUES", "CREATE TABLE"}`). -/
def LISTY : List Str := [L "SELECT", L "INSERT INTO", L "VALUES", L "CREATE TABLE"]

/-- Privilege keywords that must not break the line inside a GRANT/REVOKE
privilege list (`{"SELECT", "INSERT", "UPDATE", "DELETE", "ALL"}`). -/
def PRIVS : List Str := [L "SELECT", L "INSERT", L "UPDATE", L "DELETE", L "ALL"]

/-- `{"GRANT", "REVOKE"}`. -/
def GRANTREV : List Str := [L "GRANT", L "REVOKE"]

/-- `SQLFormatter._tokenize`: pad the structural characters, then
`str.split()`. -/
def tokenize (sql : Str) : List Str := splitWs (padF sql)

/-- `SQLFormatter._merge_compounds`: merge 2- or 3-word keywords into a
single token; uppercase keywords only.  At each position the 3-token
window is tried first, then the 2-token window, then the single token. -/
def mergeCompounds : List Str → List Str
  | [] => []
  | [t0] => [if upStr t0 ∈ KEYWORDS then upStr t0 else t0]
  | [t0, t1] =>
    if upStr t0 ++ ' ' :: upStr t1 ∈ KEYWORDS then
      [upStr t0 ++ ' ' :: upStr t1]
    else
      (if upStr t0 ∈ KEYWORDS then upStr t0 else t0) :: mergeCompounds [t1]
  | t0 :: t1 :: t2 :: rest2 =>
    if upStr t0 ++ ' ' :: upStr t1 ++ ' ' :: upStr t2 ∈ KEYWORDS then
      (upStr t0 ++ ' ' :: upStr t1 ++ ' ' :: upStr t2) :: mergeCompounds rest2
    else if upStr t0 ++ ' ' :: upStr t1 ∈ KEYWORDS then
      (upStr t0 ++ ' ' :: upStr t1) :: mergeCompounds (t2 :: rest2)
    else
      (if upStr t0 ∈ KEYWORDS then upStr t0 else t0) :: mergeCompounds (t1 :: t2 :: rest2)
termination_by l => l.length

/-- The mutable state of `SQLFormatter._format_tokens`: accumulated output
`lines`, the pending line `cur` (Python `current`), the indent level and
the two context flags. -/
structure St where
  lines : List Str
  cur : List Str
  ind : Nat
  inList : Bool
  inGrant : Bool
deriving DecidableEq, Repr

/-- Initial formatter state. -/
def st0 : St := ⟨[], [], 0, false, false⟩

/-- `" ".join(current)`. -/
def joinSp : List Str → Str
  | [] => []
  | [x] => x
  | x :: xs => x ++ ' ' :: joinSp xs

/-- `"\n".join(lines)`. -/
def joinNl : List Str → Str
  | [] => []
  | [x] => x
  | x :: xs => x ++ '\n' :: joinNl xs

/-- The indent prefix `"    " * indent_level`. -/
def indentPre (n : Nat) : Str := List.replicate (4 * n) ' '

/-- `current[-1] = current[-1] + suffix` (total version; the formatter
only reaches it with a non-empty list). -/
def appendLastTok : List Str → Str → List Str
  | [], _ => []
  | [x], suf => [x ++ suf]
  | x :: xs, suf => x :: appendLastTok xs suf

/-- `lines[-1] = lines[-1].rstrip() + ";"` (total version). -/
def semiLastLine : List Str → List Str
  | [] => []
  | [x] => [rstripWs x ++ [';']]
  | x :: xs => x :: semiLastLine xs

/-- The closure `flush_line` of `_format_tokens` (`force` is never passed
as `True` anywhere in the source, so it is omitted): join the pending
words, strip, and append as an output line at the current indent. -/
def flushLine (st : St) : St :=
  if st.cur = [] then st
  else
    { st with
      lines :=
        if stripWs (joinSp st.cur) = [] then st.lines
        else st.lines ++ [indentPre st.ind ++ stripWs (joinSp st.cur)]
      cur := [] }

/-- One iteration of the token loop of `SQLFormatter._format_tokens`. -/
def stepTok (st : St) (tok : Str) : St :=
  if tok ∈ CLAUSE_KEYWORDS ∧ ¬(st.inGrant ∧ tok ∈ PRIVS) then
    -- clause keyword: flush, start a new pending line with this token
    let st1 := flushLine st
    { st1 with
      cur := st1.cur ++ [tok]
      inList := if tok ∈ LISTY then true else st1.inList
      inGrant := decide (tok ∈ GRANTREV) }
  else if tok = [','] then
    -- attach the comma to the preceding token; break the line in list contexts
    let st1 := if st.cur ≠ [] then { st with cur := appendLastTok st.cur [','] } else st
    if st1.inList then flushLine st1 else st1
  else if tok = ['('] then
    -- '(' ends the current line, contents are indented one level deeper
    let st1 := flushLine { st with cur := st.cur ++ [['(']] }
    { st1 with ind := st1.ind + 1 }
  else if tok = [')'] then
    -- close the current item, dedent, ')' on its own line
    let st1 := flushLine st
    let st2 := { st1 with ind := st1.ind - 1 }
    let st3 := flushLine { st2 with cur := st2.cur ++ [[')']] }
    { st3 with inList := false }
  else if tok = [';'] then
    -- attach to the last token (or last line), then statement boundary
    let st1 :=
      if st.cur ≠ [] then flushLine { st with cur := appendLastTok st.cur [';'] }
      else { st with lines := semiLastLine st.lines }
    { st1 with lines := st1.lines ++ [[]], ind := 0, inList := false, inGrant := false }
  else
    if st.inGrant ∧ (tok = L "ON" ∨ tok = L "TO") then
      { st with cur := st.cur ++ [tok], inGrant := false }
    else
      { st with cur := st.cur ++ [tok] }

/-- `SQLFormatter._format_tokens`: run the state machine over all tokens,
flush the remaining pending line, join with newlines, strip the right
end. -/
def formatTokens (ts : List Str) : Str :=
  rstripWs (joinNl (flushLine (ts.foldl stepTok st0)).lines)

/-- The message of the invalid-start diagnostic. -/
def startMsg (t : Str) : Str := L "SQL must start with a keyword, got '" ++ t ++ L "'."

/-- The message of the unmatched-close-paren diagnostic. -/
def unmatchedMsg (idx : Nat) : Str := L "Unmatched ')' at token " ++ L (Nat.repr idx) ++ L "."

/-- The balance loop of `_check_syntax`: returns the unmatched-paren
diagnostics (at most one, the loop breaks) and the balance at the point
where the scan stopped. -/
def parenScanAux : List Str → Int → Nat → List Str × Int
  | [], bal, _ => ([], bal)
  | t :: ts, bal, idx =>
    if t = ['('] then parenScanAux ts (bal + 1) (idx + 1)
    else if t = [')'] then
      if bal - 1 < 0 then ([unmatchedMsg idx], bal - 1)
      else parenScanAux ts (bal - 1) (idx + 1)
    else parenScanAux ts bal (idx + 1)

/-- The parenthesis diagnostics of `_check_syntax`. -/
def parenErrs (ts : List Str) : List Str :=
  let r := parenScanAux ts 0 0
  r.1 ++ (if r.2 ≠ 0 then [L "Parentheses are not balanced."] else [])

/-- The first-token diagnostics of `_check_syntax`. -/
def startErrs : List Str → List Str
  | [] => []
  | t0 :: _ => if upStr t0 ∈ VALID_STARTS then [] else [startMsg t0]

/-- The trailing-semicolon diagnostics of `_check_syntax`. -/
def endErrs (ts : List Str) : List Str :=
  match ts.getLast? with
  | none => []
  | some t => if t = [';'] then [] else [L "SQL should end with ';'."]

/-- `SQLFormatter._check_syntax`: the three checks, diagnostics appended
in source order. -/
def checkSql (ts : List Str) : List Str :=
  startErrs ts ++ parenErrs ts ++ endErrs ts

/-- `SQLFormatter.format_and_check` (including the `sql.strip()` done in
`__init__`): returns the formatted text and the diagnostics. -/
def formatAndCheck (sql : Str) : Str × List Str :=
  let merged := mergeCompounds (tokenize (stripWs sql))
  (formatTokens merged, checkSql merged)

/-! ### Checked (Option-valued) variant of the formatter

Python's negative indexing `current[-1]`, `lines[-1]`, `tokens[0]`,
`tokens[-1]` raises `IndexError` on an empty list.  The functions below
model each such access as a fallible operation (`none` = the exception)
while transcribing the source's guards verbatim, so that totality of the
engine is a theorem rather than an artifact of the embedding. -/

/-- Fallible `current[-1] = current[-1] + suffix`. -/
def appendLastTokC : List Str → Str → Option (List Str)
  | [], _ => none
  | [x], suf => some [x ++ suf]
  | x :: xs, suf => (appendLastTokC xs suf).map (x :: ·)

/-- Fallible `lines[-1] = lines[-1].rstrip() + ";"`. -/
def semiLastLineC : List Str → Option (List Str)
  | [] => none
  | [x] => some [rstripWs x ++ [';']]
  | x :: xs => (semiLastLineC xs).map (x :: ·)

/-- Fallible `tokens[0]`. -/
def headC : List Str → Option Str
  | [] => none
  | t :: _ => some t

/-- Fallible `tokens[-1]`. -/
def getLastC : List Str → Option Str
  | [] => none
  | [x] => some x
  | _ :: xs => getLastC xs

/-- One loop iteration of `_format_tokens` with fallible list accesses;
the source's guards (`if current:`, `if lines:`) are transcribed as
written. -/
def stepTokC (st : St) (tok : Str) : Option St :=
  if tok ∈ CLAUSE_KEYWORDS ∧ ¬(st.inGrant ∧ tok ∈ PRIVS) then
    let st1 := flushLine st
    some
      { st1 with
        cur := st1.cur ++ [tok]
        inList := if tok ∈ LISTY then true else st1.inList
        inGrant := decide (tok ∈ GRANTREV) }
  else if tok = [','] then
    (if st.cur ≠ [] then
      (appendLastTokC st.cur [',']).map (fun c => { st with cur := c })
    else some st).map
      (fun st1 => if st1.inList then flushLine st1 else st1)
  else if tok = ['('] then
    let st1 := flushLine { st with cur := st.cur ++ [['(']] }
    some { st1 with ind := st1.ind + 1 }
  else if tok = [')'] then
    let st1 := flushLine st
    let st2 := { st1 with ind := st1.ind - 1 }
    let st3 := flushLine { st2 with cur := st2.cur ++ [[')']] }
    some { st3 with inList := false }
  else if tok = [';'] then
    (if st.cur ≠ [] then
      (appendLastTokC st.cur [';']).map (fun c => flushLine { st with cur := c })
    else if st.lines ≠ [] then
      (semiLastLineC st.lines).map (fun ls => { st with lines := ls })
    else some st).map
      (fun st1 =>
        { st1 with lines := st1.lines ++ [[]], ind := 0, inList := false, inGrant := false })
  else
    if st.inGrant ∧ (tok = L "ON" ∨ tok = L "TO") then
      some { st with cur := st.cur ++ [tok], inGrant := false }
    else
      some { st with cur := st.cur ++ [tok] }

/-- `_format_tokens` with fallible accesses. -/
def formatTokensC (ts : List Str) : Option Str :=
  (ts.foldlM stepTokC st0).map (fun st => rstripWs (joinNl (flushLine st).lines))

/-- First-token check with fallible `tokens[0]`. -/
def startErrsC (ts : List Str) : Option (List Str) :=
  if ts ≠ [] then
    (headC ts).map (fun t0 => if upStr t0 ∈ VALID_STARTS then [] else [startMsg t0])
  else some []

/-- Trailing-semicolon check with fallible `tokens[-1]`. -/
def endErrsC (ts : List Str) : Option (List Str) :=
  if ts ≠ [] then
    (getLastC ts).map (fun t => if t = [';'] then [] else [L "SQL should end with ';'."])
  else some []

/-- `_check_syntax` with fallible accesses. -/
def checkSqlC (ts : List Str) : Option (List Str) :=
  (startErrsC ts).bind (fun s =>
    (endErrsC ts).map (fun e => s ++ parenErrs ts ++ e))

/-- `format_and_check` with every partial list access fallible. -/
def formatAndCheckC (sql : Str) : Option (Str × List Str) :=
  (formatTokensC (mergeCompounds (tokenize (stripWs sql)))).bind (fun f =>
    (checkSqlC (mergeCompounds (tokenize (stripWs sql)))).map (fun e => (f, e)))

/-- The individual words of the formatter's keyword phrases. -/
def keywordWords : List Str := KEYWORDS.flatMap splitWs

/-- Net parenthesis balance of a token sequence. -/
def netBalance (ts : List Str) : Int :=
  ts.foldl (fun b t => if t = ['('] then b + 1 else if t = [')'] then b - 1 else b) 0

/-- The balance contribution of one token. -/
def deltaTok (t : Str) : Int :=
  if t = ['('] then 1 else if t = [')'] then -1 else 0

/-! ### Specification-side notions used to analyse the formatter -/

/-- The tokens the line formatter silently drops: a comma with an empty
pending line, and a semicolon with an empty pending line and no output
line yet. -/
def emitTok (st : St) (t : Str) : List Str :=
  if (t = [','] ∧ st.cur = []) ∨ (t = [';'] ∧ st.cur = [] ∧ st.lines = []) then []
  else [t]

/-- The sub-sequence of the tokens that actually reaches the formatted
output when the state machine runs from `st`. -/
def emitRun (st : St) : List Str → List Str
  | [] => []
  | t :: ts => emitTok st t ++ emitRun (stepTok st t) ts

/-- A merged token sequence opening with commas followed directly by a
semicolon (the one shape on which the formatter drops the semicolon
entirely); no token sequence of a well-formed script starts like this. -/
def badCommaSemi : List Str → Bool
  | [] => false
  | t :: ts => if t = [','] then badCommaSemi ts else t = [';']

/-- The run from `st` never hits a semicolon while both the pending line
and the output are empty. -/
def NoSemiDrop : St → List Str → Prop
  | _, [] => True
  | st, t :: ts =>
    ¬(t = [';'] ∧ st.cur = [] ∧ st.lines = []) ∧ NoSemiDrop (stepTok st t) ts

/-- A plain word token: non-empty, no whitespace, no structural
character. -/
def WordTok (t : Str) : Prop :=
  t ≠ [] ∧ ∀ c ∈ t, ¬(isSpC c = true) ∧ ¬(isPadC c = true)

/-- A structural punctuation token. -/
def PunctTok (t : Str) : Prop :=
  t = ['('] ∨ t = [')'] ∨ t = [','] ∨ t = [';']

/-- A two-word compound keyword token as produced by the merger. -/
def CompTok (t : Str) : Prop :=
  ∃ w1 w2, t = w1 ++ ' ' :: w2 ∧ WordTok w1 ∧ WordTok w2 ∧ t ∈ KEYWORDS ∧
    upStr w1 = w1 ∧ upStr w2 = w2

/-- Shape of a token in the merger's output: punctuation, a word stable
under the keyword check, or a compound keyword. -/
def MTokS (t : Str) : Prop :=
  PunctTok t ∨ (WordTok t ∧ (upStr t ∈ KEYWORDS → upStr t = t)) ∨ CompTok t

/-- First word of a token. -/
def firstW (t : Str) : Str := (tokenize t).headD []

/-- Last word of a token. -/
def lastW (t : Str) : Str := (tokenize t).getLastD []

/-- Two adjacent tokens of the output stream never form a keyword pair
across their boundary. -/
def noPair (a b : Str) : Prop :=
  upStr (lastW a) ++ ' ' :: upStr (firstW b) ∉ KEYWORDS

/-- Second words of the formatter's compound keyword phrases. -/
def secondWordsK : List Str := KEYWORDS.flatMap (fun k => (splitWs k).drop 1)

/-- Cons an optional element. -/
def optCons : Option Str → List Str → List Str
  | none, l => l
  | some a, l => a :: l

/-- All the coarse tokens contained in a formatter state, in order: the
re-tokenization of the flushed lines followed by that of the pending
line. -/
def outTok (st : St) : List Str :=
  st.lines.flatMap tokenize ++ st.cur.flatMap tokenize

/-- A token whose first character is not whitespace. -/
def HeadOK (t : Str) : Prop := ∃ c rest, t = c :: rest ∧ ¬(isSpC c = true)

/-- All pending-line entries start with a printable character. -/
def StOK (st : St) : Prop := ∀ x ∈ st.cur, HeadOK x

/-- The formatter state already produced something. -/
def NE (st : St) : Prop := st.lines ≠ [] ∨ st.cur ≠ []

end SQLFormatter

/-- `leadsWith pat s`: the string `s` starts with `pat`. -/
def leadsWith : Str → Str → Bool
  | [], _ => true
  | _ :: _, [] => false
  | c :: cs, d :: ds => c = d && leadsWith cs ds

/-! ## The classifying lexer `highlight_sql_tokenize` (sql_tester.py)

The master regex is an ordered alternation
`ws | lc | bc | sq | dq | bt | param | number | op | punct | ident`
tried at every position by `finditer`; spans matched by no alternative are
emitted verbatim as fallback `ident` tokens.  Each alternative is embedded
below as a matcher returning the length it consumes at the head of the
input, reproducing the Python regex semantics (greediness, the non-greedy
block comment body, and the backtracking of the quoted-string patterns
`'(?:''|[^'])*'` at end of input). -/

/-- The whitespace class of the lexer regex `[ \t\r\n\f]+` (note: unlike
Python `str.split`, no vertical tab). -/
def isReSp (c : Char) : Bool :=
  c = ' ' || c = '\t' || c = '\r' || c = '\n' || c.toNat = 12

/-- ASCII digit `[0-9]`. -/
def isDigitC (c : Char) : Bool := 48 ≤ c.toNat && c.toNat ≤ 57

/-- ASCII letter `[A-Za-z]`. -/
def isAlphaC (c : Char) : Bool :=
  (65 ≤ c.toNat && c.toNat ≤ 90) || (97 ≤ c.toNat && c.toNat ≤ 122)

/-- `[A-Za-z_]`: start of an identifier or of a named parameter. -/
def identStartC (c : Char) : Bool := isAlphaC c || c = '_'

/-- `\w` (ASCII): `[A-Za-z0-9_]`. -/
def wordC (c : Char) : Bool := isAlphaC c || isDigitC c || c = '_'

/-- `[A-Za-z0-9_$]`: identifier continuation. -/
def identContC (c : Char) : Bool := isAlphaC c || isDigitC c || c = '_' || c = '$'

/-- The backtick character (code point 96). -/
def btQuote : Char := Char.ofNat 96

/-- `(?P<ws>[ \t\r\n\f]+)`. -/
def wsLen (l : Str) : Option Nat :=
  if (l.takeWhile isReSp).length = 0 then none
  else some (l.takeWhile isReSp).length

/-- `(?P<lc>--[^\n]*)`. -/
def lcLen : Str → Option Nat
  | [] => none
  | [_] => none
  | c1 :: c2 :: rest =>
    if c1 = '-' ∧ c2 = '-' then
      some (2 + (rest.takeWhile (fun c => c != '\n')).length)
    else none

/-- Position just past the first `*/` in the block-comment body (the
non-greedy `.*?\*/` finds the earliest closer). -/
def findCloseBC : Str → Option Nat
  | [] => none
  | [_] => none
  | c1 :: c2 :: cs =>
    if c1 = '*' ∧ c2 = '/' then some 2
    else (findCloseBC (c2 :: cs)).map (· + 1)

/-- `(?P<bc>/\*.*?\*/)` with `re.DOTALL`. -/
def bcLen : Str → Option Nat
  | [] => none
  | [_] => none
  | c1 :: c2 :: rest =>
    if c1 = '/' ∧ c2 = '*' then (findCloseBC rest).map (· + 2)
    else none

/-- Body scan of `q(?:qq|[^q])*q`: consume doubled quotes and non-quote
characters greedily; at end of input the regex backtracks to the last
doubled quote, whose first character then serves as the closing quote.
`consumed` counts body characters consumed so far, `lastPair` carries the
total match length of the latest backtracking candidate. -/
def sqAux (q : Char) : Str → Nat → Option Nat → Option Nat
  | [], _, lastPair => lastPair
  | [c], consumed, lastPair =>
    if c = q then some (consumed + 2) else lastPair
  | c :: c2 :: cs, consumed, lastPair =>
    if c = q then
      if c2 = q then sqAux q cs (consumed + 2) (some (consumed + 2))
      else some (consumed + 2)
    else sqAux q (c2 :: cs) (consumed + 1) lastPair

/-- `(?P<sq>'(?:''|[^'])*')` and `(?P<bt>`-quoted`)`: quoted literal with
doubled-quote escape, parameterized by the quote character. -/
def sqLen (q : Char) : Str → Option Nat
  | c :: cs => if c = q then sqAux q cs 0 none else none
  | [] => none

/-- Index of the last occurrence of `q`. -/
def lastIdxOf (q : Char) : Str → Option Nat
  | [] => none
  | c :: cs =>
    match lastIdxOf q cs with
    | some k => some (k + 1)
    | none => if c = q then some 0 else none

/-- `(?P<dq>"(?:[""]|[^"])*")`: the character class `[""]` is just `"`,
so the body alternation matches every character and the greedy star makes
the match extend to the last `"` of the input. -/
def dqLen : Str → Option Nat
  | c :: cs => if c = '"' then (lastIdxOf '"' cs).map (· + 2) else none
  | [] => none

/-- `(?P<param>\?|:[A-Za-z_]\w*|@[A-Za-z_]\w*|\$[A-Za-z_]\w*)`. -/
def paramLen : Str → Option Nat
  | [] => none
  | [c] => if c = '?' then some 1 else none
  | c :: c2 :: rest =>
    if c = '?' then some 1
    else if (c = ':' || c = '@' || c = '$') && identStartC c2 then
      some (2 + (rest.takeWhile wordC).length)
    else none

/-- `(?P<number>\d+(?:\.\d+)?|\.\d+)` (with regex backtracking: `1.` is
just `1`, a bare `.` is no number). -/
def numberLen (l : Str) : Option Nat :=
  if (l.takeWhile isDigitC).length ≠ 0 then
    if (l.drop (l.takeWhile isDigitC).length).head? = some '.' ∧
        ((l.drop ((l.takeWhile isDigitC).length + 1)).takeWhile isDigitC).length ≠ 0 then
      some ((l.takeWhile isDigitC).length + 1 +
        ((l.drop ((l.takeWhile isDigitC).length + 1)).takeWhile isDigitC).length)
    else some (l.takeWhile isDigitC).length
  else
    if l.head? = some '.' ∧ ((l.drop 1).takeWhile isDigitC).length ≠ 0 then
      some (1 + ((l.drop 1).takeWhile isDigitC).length)
    else none

/-- Single-character operator class `[=<>+\-*/%]`. -/
def opSingle (c : Char) : Bool :=
  c = '=' || c = '<' || c = '>' || c = '+' || c = '-' || c = '*' ||
    c = '/' || c = '%'

/-- `(?P<op><>|!=|<=|>=|\|\||[=<>+\-*/%])`: two-character operators
before single-character ones. -/
def opLen : Str → Option Nat
  | [] => none
  | [c] => if opSingle c then some 1 else none
  | c :: c2 :: _ =>
    if (c = '<' ∧ c2 = '>') ∨ (c = '!' ∧ c2 = '=') ∨ (c = '<' ∧ c2 = '=') ∨
        (c = '>' ∧ c2 = '=') ∨ (c = '|' ∧ c2 = '|') then some 2
    else if opSingle c then some 1
    else none

/-- `(?P<punct>[(),.;])`. -/
def punctLen : Str → Option Nat
  | c :: _ =>
    if c = '(' || c = ')' || c = ',' || c = '.' || c = ';' then some 1 else none
  | [] => none

/-- `(?P<ident>[A-Za-z_][A-Za-z0-9_$]*)`. -/
def identLen : Str → Option Nat
  | c :: cs => if identStartC c then some (1 + (cs.takeWhile identContC).length) else none
  | [] => none

/-- Token categories emitted by `highlight_sql_tokenize` (the tag strings
`"ws"`, `"comment"`, `"string"`, `"param"`, `"number"`, `"op"`,
`"punct"`, `"ident"`, `"keyword"`). -/
inductive HKind where
  | ws | comment | string | param | number | op | punct | ident | keyword
deriving DecidableEq, Repr

/-- One attempt of the master regex at the current position: the ordered
alternation, first match wins. -/
def tokStep (l : Str) : Option (HKind × Nat) :=
  match wsLen l with
  | some n => some (.ws, n)
  | none =>
  match lcLen l with
  | some n => some (.comment, n)
  | none =>
  match bcLen l with
  | some n => some (.comment, n)
  | none =>
  match sqLen '\'' l with
  | some n => some (.string, n)
  | none =>
  match dqLen l with
  | some n => some (.string, n)
  | none =>
  match sqLen btQuote l with
  | some n => some (.string, n)
  | none =>
  match paramLen l with
  | some n => some (.param, n)
  | none =>
  match numberLen l with
  | some n => some (.number, n)
  | none =>
  match opLen l with
  | some n => some (.op, n)
  | none =>
  match punctLen l with
  | some n => some (.punct, n)
  | none =>
  match identLen l with
  | some n => some (.ident, n)
  | none => none

/-- The reserved-keyword vocabulary of `highlight_sql_tokenize`
(`KEYWORDS` local to that function). -/
def HKEYWORDS : List Str :=
  [ L "ABORT", L "ABS", L "ABSOLUTE", L "ACCESS", L "ACTION", L "ADD", L "AFTER",
    L "ALL", L "ALTER", L "ALWAYS", L "ANALYZE", L "AND", L "AS", L "ASC",
    L "ATTACH", L "AUTOINCREMENT", L "BEFORE", L "BEGIN", L "BETWEEN", L "BINARY",
    L "BLOB", L "BY", L "CASCADE", L "CASE", L "CAST", L "CHECK",
    L "COLLATE", L "COLUMN", L "COMMIT", L "CONFLICT", L "CONSTRAINT", L "CREATE",
    L "CROSS", L "CURRENT", L "CURRENT_DATE",
    L "CURRENT_TIME", L "CURRENT_TIMESTAMP", L "DATABASE", L "DEFAULT",
    L "DEFERRABLE", L "DEFERRED", L "DELETE", L "DESC", L "DETACH",
    L "DISTINCT", L "DO", L "DROP", L "EACH", L "ELSE", L "END", L "ESCAPE",
    L "EXCEPT", L "EXCLUDE", L "EXCLUSIVE", L "EXISTS", L "EXPLAIN",
    L "FAIL", L "FILTER", L "FIRST", L "FOLLOWING", L "FOR", L "FOREIGN",
    L "FROM", L "FULL", L "GENERATED", L "GLOB", L "GROUP", L "HAVING",
    L "IF", L "IGNORE", L "IMMEDIATE", L "IN", L "INDEX", L "INDEXED",
    L "INITIALLY", L "INNER", L "INSERT", L "INSTEAD", L "INTERSECT",
    L "INTO", L "IS", L "ISNULL", L "JOIN", L "KEY", L "LAST", L "LEFT",
    L "LIKE", L "LIMIT", L "MATCH", L "MATERIALIZED", L "NATURAL", L "NO",
    L "NOT", L "NOTHING", L "NOTNULL", L "NULL", L "NULLS", L "OF", L "OFFSET",
    L "ON", L "OR", L "ORDER", L "OTHERS", L "OUTER", L "OVER", L "PARTITION",
    L "PLAN", L "PRAGMA", L "PRECEDING", L "PRIMARY", L "QUERY", L "RAISE",
    L "RANGE", L "RECURSIVE", L "REFERENCES", L "REGEXP", L "REINDEX",
    L "RELEASE", L "RENAME", L "REPLACE", L "RESTRICT", L "RETURNING",
    L "RIGHT", L "ROLLBACK", L "ROW", L "ROWS", L "SAVEPOINT", L "SELECT",
    L "SET", L "TABLE", L "TEMP", L "TEMPORARY", L "THEN", L "TIES", L "TO",
    L "TRANSACTION", L "TRIGGER", L "UNBOUNDED", L "UNION", L "UNIQUE",
    L "UPDATE", L "USING", L "VACUUM", L "VALUES", L "VIEW", L "VIRTUAL",
    L "WHEN", L "WHERE", L "WINDOW", L "WITH", L "WITHOUT", L "QUALIFY" ]

/-- Token emission: `ident` matches are re-classified as keywords (and
uppercased) when their case-folded value is in `HKEYWORDS`; all other
kinds carry the matched span verbatim. -/
def mkTok (k : HKind) (span : Str) : HKind × Str :=
  if k = HKind.ident then
    if upStr span ∈ HKEYWORDS then (HKind.keyword, upStr span) else (HKind.ident, span)
  else (k, span)

/-- `takeWhile` never takes more than the whole list. -/
theorem takeWhile_len_le (p : Char → Bool) (xs : Str) :
    (xs.takeWhile p).length ≤ xs.length :=
  (List.takeWhile_sublist p).length_le

/-- Strong induction on the length of a list. -/
theorem list_length_ind {α : Type} {P : List α → Prop}
    (step : ∀ l, (∀ l', l'.length < l.length → P l') → P l) : ∀ l, P l := by
  have key : ∀ n (l : List α), l.length ≤ n → P l := by
    intro n
    induction n with
    | zero =>
      intro l hl
      exact step l (fun l' hl' => absurd (Nat.lt_of_lt_of_le hl' hl) (Nat.not_lt_zero _))
    | succ n ih =>
      intro l hl
      exact step l (fun l' hl' => ih l' (by omega))
  exact fun l => key l.length l Nat.le.refl

/-- Bound of the block-comment closer search. -/
theorem findCloseBC_bound : ∀ xs k, findCloseBC xs = some k → 2 ≤ k ∧ k ≤ xs.length := by
  intro xs
  induction xs with
  | nil => intro k hk; simp [findCloseBC] at hk
  | cons c cs ih =>
    intro k hk
    cases cs with
    | nil => simp [findCloseBC] at hk
    | cons c2 cs2 =>
      rw [findCloseBC] at hk
      split at hk
      · simp at hk
        simp only [List.length_cons]
        omega
      · simp only [Option.map_eq_some'] at hk
        obtain ⟨k', hk', rfl⟩ := hk
        have := ih k' hk'
        simp only [List.length_cons] at *
        omega

/-- Bound of the quoted-literal body scan. -/
theorem sqAux_bound (q : Char) : ∀ (cs : Str) (consumed : Nat) (lp : Option Nat) (n : Nat),
    (∀ m, lp = some m → 2 ≤ m ∧ m ≤ consumed + 1) →
    sqAux q cs consumed lp = some n → 2 ≤ n ∧ n ≤ consumed + cs.length + 1 := by
  intro cs
  induction cs using list_length_ind with
  | step cs ih =>
    intro consumed lp n hlp h
    match cs with
    | [] =>
      simp only [sqAux] at h
      have := hlp n h
      simp only [List.length_nil]
      omega
    | [c] =>
      rw [sqAux] at h
      split at h
      · simp at h
        simp only [List.length_cons, List.length_nil]
        omega
      · have := hlp n h
        simp only [List.length_cons, List.length_nil]
        omega
    | c :: c2 :: cs2 =>
      rw [sqAux] at h
      split at h
      · split at h
        · have := ih cs2 (by simp only [List.length_cons]; omega)
            (consumed + 2) (some (consumed + 2)) n
            (by intro m hm; cases hm; omega) h
          simp only [List.length_cons] at *
          omega
        · simp at h
          simp only [List.length_cons]
          omega
      · have := ih (c2 :: cs2) (by simp only [List.length_cons]; omega) (consumed + 1) lp n
          (by intro m hm; have := hlp m hm; omega) h
        simp only [List.length_cons] at *
        omega

/-- Bound of the last-occurrence search. -/
theorem lastIdxOf_bound (q : Char) : ∀ cs k, lastIdxOf q cs = some k → k < cs.length := by
  intro cs
  induction cs with
  | nil => intro k hk; simp [lastIdxOf] at hk
  | cons c cs ih =>
    intro k hk
    rw [lastIdxOf] at hk
    split at hk
    · rename_i k' hrec
      simp at hk
      have := ih k' hrec
      simp only [List.length_cons]
      omega
    · split at hk
      · simp at hk
        simp only [List.length_cons]
        omega
      · simp at hk

/-- Bound for the whitespace matcher. -/
theorem wsLen_bound {l : Str} {n : Nat} (h : wsLen l = some n) :
    0 < n ∧ n ≤ l.length := by
  rw [wsLen] at h
  split at h
  · simp at h
  · rename_i hz
    cases h
    exact ⟨Nat.pos_of_ne_zero hz, takeWhile_len_le _ _⟩

/-- Bound for the line-comment matcher. -/
theorem lcLen_bound {l : Str} {n : Nat} (h : lcLen l = some n) :
    0 < n ∧ n ≤ l.length := by
  match l with
  | [] => simp [lcLen] at h
  | [c] => simp [lcLen] at h
  | c1 :: c2 :: rest =>
    rw [lcLen] at h
    split at h
    · cases h
      have := takeWhile_len_le (fun c => c != '\n') rest
      simp only [List.length_cons]
      omega
    · simp at h

/-- Bound for the block-comment matcher. -/
theorem bcLen_bound {l : Str} {n : Nat} (h : bcLen l = some n) :
    0 < n ∧ n ≤ l.length := by
  match l with
  | [] => simp [bcLen] at h
  | [c] => simp [bcLen] at h
  | c1 :: c2 :: rest =>
    rw [bcLen] at h
    split at h
    · simp only [Option.map_eq_some'] at h
      obtain ⟨k', hk', rfl⟩ := h
      have := findCloseBC_bound rest k' hk'
      simp only [List.length_cons]
      omega
    · simp at h

/-- Bound for the quoted-literal matcher. -/
theorem sqLen_bound (q : Char) {l : Str} {n : Nat} (h : sqLen q l = some n) :
    0 < n ∧ n ≤ l.length := by
  match l with
  | [] => simp [sqLen] at h
  | c :: cs =>
    rw [sqLen] at h
    split at h
    · have := sqAux_bound q cs 0 none n (by intro m hm; cases hm) h
      simp only [List.length_cons]
      omega
    · simp at h

/-- Bound for the double-quoted matcher. -/
theorem dqLen_bound {l : Str} {n : Nat} (h : dqLen l = some n) :
    0 < n ∧ n ≤ l.length := by
  match l with
  | [] => simp [dqLen] at h
  | c :: cs =>
    rw [dqLen] at h
    split at h
    · simp only [Option.map_eq_some'] at h
      obtain ⟨k', hk', rfl⟩ := h
      have := lastIdxOf_bound '"' cs k' hk'
      simp only [List.length_cons]
      omega
    · simp at h

/-- Bound for the parameter matcher. -/
theorem paramLen_bound {l : Str} {n : Nat} (h : paramLen l = some n) :
    0 < n ∧ n ≤ l.length := by
  match l with
  | [] => simp [paramLen] at h
  | [c] =>
    rw [paramLen] at h
    split at h
    · cases h; simp
    · simp at h
  | c :: c2 :: rest =>
    rw [paramLen] at h
    split at h
    · cases h; simp
    split at h
    · cases h
      have := takeWhile_len_le wordC rest
      simp only [List.length_cons]
      omega
    · simp at h

/-- Bound for the number matcher. -/
theorem numberLen_bound {l : Str} {n : Nat} (h : numberLen l = some n) :
    0 < n ∧ n ≤ l.length := by
  rw [numberLen] at h
  have hdle := takeWhile_len_le isDigitC l
  split at h
  · rename_i hd
    split at h
    · cases h
      rename_i hdot
      obtain ⟨hh, hd2⟩ := hdot
      have h2 := takeWhile_len_le isDigitC (l.drop ((l.takeWhile isDigitC).length + 1))
      have h3 : (l.drop ((l.takeWhile isDigitC).length + 1)).length
          = l.length - ((l.takeWhile isDigitC).length + 1) := List.length_drop _ _
      have h4 : l.drop (l.takeWhile isDigitC).length ≠ [] := by
        intro hemp; rw [hemp] at hh; simp at hh
      have h5 : (l.takeWhile isDigitC).length < l.length := by
        by_contra hge
        exact h4 (List.drop_eq_nil_of_le (by omega))
      omega
    · cases h
      exact ⟨Nat.pos_of_ne_zero hd, hdle⟩
  · split at h
    · cases h
      rename_i hdot
      obtain ⟨hh, hd2⟩ := hdot
      have h2 := takeWhile_len_le isDigitC (l.drop 1)
      have h3 : (l.drop 1).length = l.length - 1 := List.length_drop _ _
      have h4 : l ≠ [] := by intro he; rw [he] at hh; simp at hh
      have h5 : 0 < l.length := List.length_pos.mpr h4
      omega
    · simp at h

/-- Bound for the operator matcher. -/
theorem opLen_bound {l : Str} {n : Nat} (h : opLen l = some n) :
    0 < n ∧ n ≤ l.length := by
  match l with
  | [] => simp [opLen] at h
  | [c] =>
    rw [opLen] at h
    split at h
    · cases h; simp
    · simp at h
  | c :: c2 :: rest =>
    rw [opLen] at h
    split at h
    · cases h; simp
    split at h
    · cases h; simp
    · simp at h

/-- Bound for the punctuation matcher. -/
theorem punctLen_bound {l : Str} {n : Nat} (h : punctLen l = some n) :
    0 < n ∧ n ≤ l.length := by
  match l with
  | [] => simp [punctLen] at h
  | c :: rest =>
    rw [punctLen] at h
    split at h
    · cases h; simp
    · simp at h

/-- Bound for the identifier matcher. -/
theorem identLen_bound {l : Str} {n : Nat} (h : identLen l = some n) :
    0 < n ∧ n ≤ l.length := by
  match l with
  | [] => simp [identLen] at h
  | c :: cs =>
    rw [identLen] at h
    split at h
    · cases h
      have := takeWhile_len_le identContC cs
      simp only [List.length_cons]
      omega
    · simp at h

/-- Positivity and boundedness of one regex match (each alternative
consumes at least one and at most all remaining characters). -/
theorem tokStep_pos {l : Str} {kn : HKind × Nat} (h : tokStep l = some kn) :
    0 < kn.2 ∧ kn.2 ≤ l.length := by
  rw [tokStep] at h
  split at h
  · rename_i n hm; cases h; exact wsLen_bound hm
  split at h
  · rename_i n hm; cases h; exact lcLen_bound hm
  split at h
  · rename_i n hm; cases h; exact bcLen_bound hm
  split at h
  · rename_i n hm; cases h; exact sqLen_bound _ hm
  split at h
  · rename_i n hm; cases h; exact dqLen_bound hm
  split at h
  · rename_i n hm; cases h; exact sqLen_bound _ hm
  split at h
  · rename_i n hm; cases h; exact paramLen_bound hm
  split at h
  · rename_i n hm; cases h; exact numberLen_bound hm
  split at h
  · rename_i n hm; cases h; exact opLen_bound hm
  split at h
  · rename_i n hm; cases h; exact punctLen_bound hm
  split at h
  · rename_i n hm; cases h; exact identLen_bound hm
  · simp at h
/-- The `finditer` loop of `highlight_sql_tokenize`: `gap` accumulates
characters matched by no alternative; it is flushed verbatim as a
fallback `ident` token before the next match (and at end of input). -/
def hTokenizeAux (gap : Str) (l : Str) : List (HKind × Str) :=
  match l with
  | [] => if gap = [] then [] else [(.ident, gap)]
  | c :: cs =>
    match hstep : tokStep (c :: cs) with
    | some kn =>
      (if gap = [] then [] else [(.ident, gap)]) ++
        (mkTok kn.1 ((c :: cs).take kn.2) :: hTokenizeAux [] ((c :: cs).drop kn.2))
    | none => hTokenizeAux (gap ++ [c]) cs
termination_by l.length
decreasing_by
  · have := tokStep_pos hstep
    simp only [List.length_drop, List.length_cons]
    omega
  · simp

/-- `highlight_sql_tokenize`. -/
def hTokenize (s : Str) : List (HKind × Str) := hTokenizeAux [] s

/-- Concatenation of the `raw_text` fields of a classified token list. -/
def concatRaw (ts : List (HKind × Str)) : Str := ts.flatMap Prod.snd

end SqlTester

namespace SqlTester

open SQLFormatter

unseal mergeCompounds
unseal hTokenizeAux

/-- Claim C5 (confirmed): on the concrete input
`select id,name from t where id=1;` the engine returns exactly the
four-line text `SELECT id, / name / FROM t / WHERE id=1;` (the comma of
the SELECT list breaks the line after its item) and an empty diagnostics
list. -/
theorem C5_select_list_scenario :
    formatAndCheck (L "select id,name from t where id=1;")
      = (L "SELECT id,\nname\nFROM t\nWHERE id=1;", []) := by decide

/-- Claim C6 (confirmed): on the concrete input
`GRANT SELECT, INSERT ON posts TO bob;` the engine returns the single
line `GRANT SELECT, INSERT ON posts TO bob;` (privilege-list commas do
not break the line, `ON` stays inline) and an empty diagnostics list. -/
theorem C6_grant_scenario :
    formatAndCheck (L "GRANT SELECT, INSERT ON posts TO bob;")
      = (L "GRANT SELECT, INSERT ON posts TO bob;", []) := by decide

/-- Counterexample to claim C9: the word `GRANT` is part of the
formatter's keyword table but is not in the classifying lexer's
reserved-keyword vocabulary, so the vocabulary is not a superset of the
formatter's table. -/
theorem C9_counterexample :
    L "GRANT" ∈ keywordWords ∧ L "GRANT" ∉ HKEYWORDS := by decide

/-- Claim C9 amended: every word of the formatter's keyword phrases
except the four words `GRANT`, `REVOKE`, `TRUNCATE`, `OPTION` is a member
of the lexer's reserved-keyword vocabulary. -/
theorem C9_amended_superset_except_four :
    ∀ w ∈ keywordWords,
      w ∉ [L "GRANT", L "REVOKE", L "TRUNCATE", L "OPTION"] → w ∈ HKEYWORDS := by
  decide

/-- Witness for the amended claim C9, at the keyword word `SELECT`. -/
theorem C9_amended_witness : L "SELECT" ∈ HKEYWORDS :=
  C9_amended_superset_except_four (L "SELECT") (by decide) (by decide)

/-- Claim C10 (confirmed): a comma processed while the pending-line
buffer is empty leaves the formatter state completely unchanged — the
comma is silently dropped from the output — and concretely
`format_and_check(", a;")` returns the formatted string `a;`, which
contains no comma. -/
theorem C10_comma_dropped_on_empty_buffer :
    (∀ st : St, st.cur = [] → stepTok st [','] = st) ∧
    (formatAndCheck (L ", a;")).1 = L "a;" ∧
    ',' ∉ (formatAndCheck (L ", a;")).1 := by
  refine ⟨?_, by decide, by decide⟩
  intro st hcur
  have h1 : ([','] : Str) ∉ CLAUSE_KEYWORDS := by decide
  simp [stepTok, h1, hcur, flushLine]

/-- Witness for claim C10, at the initial state. -/
theorem C10_witness : stepTok st0 [','] = st0 :=
  C10_comma_dropped_on_empty_buffer.1 st0 rfl

/-! ### The parenthesis balance scan (claim C7) -/

theorem foldl_bal (ts : List Str) : ∀ b : Int,
    ts.foldl (fun b t => if t = ['('] then b + 1 else if t = [')'] then b - 1 else b) b
      = b + netBalance ts := by
  induction ts with
  | nil => intro b; simp [netBalance]
  | cons t ts ih =>
    intro b
    have hstep : ∀ c : Int,
        (if t = ['('] then c + 1 else if t = [')'] then c - 1 else c) = c + deltaTok t := by
      intro c
      rw [deltaTok]
      split
      · rfl
      · split <;> omega
    rw [netBalance, List.foldl_cons, List.foldl_cons, ih, ih, hstep, hstep]
    omega

theorem netBalance_cons (t : Str) (ts : List Str) :
    netBalance (t :: ts) = deltaTok t + netBalance ts := by
  have h := foldl_bal ts (if t = ['('] then (0 : Int) + 1 else if t = [')'] then 0 - 1 else 0)
  rw [netBalance, List.foldl_cons, h, deltaTok]
  split
  · omega
  · split <;> omega

theorem deltaTok_open : deltaTok ['('] = 1 := by decide

theorem deltaTok_close : deltaTok [')'] = -1 := by decide

theorem deltaTok_other {t : Str} (h1 : t ≠ ['(']) (h2 : t ≠ [')']) : deltaTok t = 0 := by
  rw [deltaTok, if_neg h1, if_neg h2]

/-- The scan with no triggering close paren returns no diagnostic and the
net balance. -/
theorem scanAux_complete : ∀ (ts : List Str) (b : Int) (i : Nat),
    (∀ k, k < ts.length → ts.getD k [] = [')'] → 0 < b + netBalance (ts.take k)) →
    parenScanAux ts b i = ([], b + netBalance ts) := by
  intro ts
  induction ts with
  | nil => intro b i _; simp [parenScanAux, netBalance]
  | cons t ts ih =>
    intro b i hk
    rw [parenScanAux, netBalance_cons]
    by_cases h1 : t = ['(']
    · rw [if_pos h1]
      rw [ih (b + 1) (i + 1) ?_]
      · simp only [Prod.mk.injEq]
        refine ⟨trivial, ?_⟩
        rw [h1, deltaTok_open]
        omega
      · intro k hklen hkg
        have := hk (k + 1) (by simpa using hklen) (by simpa using hkg)
        rw [List.take_succ_cons, netBalance_cons, h1, deltaTok_open] at this
        omega
    · rw [if_neg h1]
      by_cases h2 : t = [')']
      · rw [if_pos h2]
        have hb := hk 0 (by simp) (by simpa using h2)
        simp [netBalance] at hb
        rw [if_neg (by omega)]
        rw [ih (b - 1) (i + 1) ?_]
        · simp only [Prod.mk.injEq]
          refine ⟨trivial, ?_⟩
          rw [h2, deltaTok_close]
          omega
        · intro k hklen hkg
          have := hk (k + 1) (by simpa using hklen) (by simpa using hkg)
          rw [List.take_succ_cons, netBalance_cons, h2, deltaTok_close] at this
          omega
      · rw [if_neg h2]
        rw [ih b (i + 1) ?_]
        · simp only [Prod.mk.injEq]
          refine ⟨trivial, ?_⟩
          rw [deltaTok_other h1 h2]
          omega
        · intro k hklen hkg
          have := hk (k + 1) (by simpa using hklen) (by simpa using hkg)
          rw [List.take_succ_cons, netBalance_cons, deltaTok_other h1 h2] at this
          omega

/-- The scan stops at the first close paren that drives the balance
negative and reports its index. -/
theorem scanAux_stops : ∀ (ts : List Str) (b : Int) (i k : Nat),
    k < ts.length → ts.getD k [] = [')'] → b + netBalance (ts.take k) ≤ 0 →
    (∀ j, j < k → ¬(ts.getD j [] = [')'] ∧ b + netBalance (ts.take j) ≤ 0)) →
    parenScanAux ts b i = ([unmatchedMsg (i + k)], b + netBalance (ts.take k) - 1) := by
  intro ts
  induction ts with
  | nil => intro b i k hklen; simp at hklen
  | cons t ts ih =>
    intro b i k hklen hkg hneg hmin
    match k with
    | 0 =>
      simp at hkg
      rw [List.take_zero, netBalance] at hneg ⊢
      simp at hneg ⊢
      rw [parenScanAux, if_neg (by rw [hkg]; decide), if_pos hkg, if_pos (by omega)]

    | k' + 1 =>
      have hklen' : k' < ts.length := by simpa using hklen
      have hkg' : ts.getD k' [] = [')'] := by simpa using hkg
      have hidx : i + 1 + k' = i + (k' + 1) := by omega
      rw [List.take_succ_cons, netBalance_cons] at hneg
      rw [List.take_succ_cons, netBalance_cons]
      rw [parenScanAux]
      by_cases h1 : t = ['(']
      · rw [if_pos h1]
        rw [h1, deltaTok_open] at hneg ⊢
        rw [ih (b + 1) (i + 1) k' hklen' hkg' (by omega) ?_]
        · simp only [Prod.mk.injEq]
          exact ⟨by rw [hidx], by omega⟩
        · intro j hj hcon
          exact hmin (j + 1) (by omega)
            ⟨by simpa using hcon.1,
             by rw [List.take_succ_cons, netBalance_cons, h1, deltaTok_open]
                have := hcon.2
                omega⟩
      · rw [if_neg h1]
        by_cases h2 : t = [')']
        · rw [if_pos h2]
          have hb : ¬(b + netBalance ((t :: ts).take 0) ≤ 0) := fun hcon =>
            hmin 0 (by omega) ⟨by simpa using h2, hcon⟩
          rw [List.take_zero, netBalance] at hb
          simp at hb
          rw [if_neg (by omega)]
          rw [h2, deltaTok_close] at hneg ⊢
          rw [ih (b - 1) (i + 1) k' hklen' hkg' (by omega) ?_]
          · simp only [Prod.mk.injEq]
            exact ⟨by rw [hidx], by omega⟩
          · intro j hj hcon
            exact hmin (j + 1) (by omega)
              ⟨by simpa using hcon.1,
               by rw [List.take_succ_cons, netBalance_cons, h2, deltaTok_close]
                  have := hcon.2
                  omega⟩
        · rw [if_neg h2]
          rw [deltaTok_other h1 h2] at hneg ⊢
          rw [ih b (i + 1) k' hklen' hkg' (by omega) ?_]
          · simp only [Prod.mk.injEq]
            exact ⟨by rw [hidx], by omega⟩
          · intro j hj hcon
            exact hmin (j + 1) (by omega)
              ⟨by simpa using hcon.1,
               by rw [List.take_succ_cons, netBalance_cons, deltaTok_other h1 h2]
                  have := hcon.2
                  omega⟩

/-- Claim C7 (confirmed): the balance scan emits the unmatched-close
diagnostic at the first `)` that would drive the balance negative and
stops there, always followed by the generic imbalance diagnostic (the
stopping balance is negative, hence non-zero); with no such `)` the scan
completes and emits the generic diagnostic exactly when the net balance
is non-zero.  Concretely, `CREATE TABLE t (id INT;` yields exactly
`Parentheses are not balanced.` and no trailing-semicolon diagnostic. -/
theorem C7_paren_scan :
    (∀ (ts : List Str) (i : Nat), i < ts.length → ts.getD i [] = [')'] →
        netBalance (ts.take i) ≤ 0 →
        (∀ j, j < i → ¬(ts.getD j [] = [')'] ∧ netBalance (ts.take j) ≤ 0)) →
        parenErrs ts = [unmatchedMsg i, L "Parentheses are not balanced."]) ∧
    (∀ ts : List Str,
        (∀ i, i < ts.length → ts.getD i [] = [')'] → 0 < netBalance (ts.take i)) →
        parenErrs ts
          = if netBalance ts ≠ 0 then [L "Parentheses are not balanced."] else []) ∧
    (formatAndCheck (L "CREATE TABLE t (id INT;")).2
      = [L "Parentheses are not balanced."] := by
  refine ⟨?_, ?_, by decide⟩
  · intro ts i hilen hig hneg hmin
    have h := scanAux_stops ts 0 0 i hilen hig (by omega)
      (by intro j hj hcon; exact hmin j hj ⟨hcon.1, by omega⟩)
    rw [parenErrs, h]
    simp only
    rw [if_pos (by omega)]
    simp
  · intro ts hpos
    have h := scanAux_complete ts 0 0
      (by intro k hk hkg; have := hpos k hk hkg; omega)
    rw [parenErrs, h]
    simp only [List.nil_append]
    by_cases hz : netBalance ts = 0
    · rw [if_neg (by omega), if_neg (by omega)]
    · rw [if_pos (by omega), if_pos (by omega)]

/-- Witness for claim C7: the scan of the single-token sequence `)`
stops at index 0 and reports both diagnostics. -/
theorem C7_witness :
    parenErrs [[')']] = [unmatchedMsg 0, L "Parentheses are not balanced."] :=
  C7_paren_scan.1 [[')']] 0 (by decide) (by decide) (by decide)
    (fun j hj => absurd hj (by omega))

/-! ### The statement-start check (claim C8) -/

/-- No unmatched-close message starts like a start diagnostic. -/
theorem not_start_unmatched (idx : Nat) :
    leadsWith (L "SQL must start") (unmatchedMsg idx) = false := rfl

/-- The start diagnostic does start like a start diagnostic. -/
theorem start_startMsg (t : Str) :
    leadsWith (L "SQL must start") (startMsg t) = true := rfl

/-- The diagnostics of the balance loop are `[]` or one unmatched-close
message. -/
theorem scanFst_shape : ∀ (ts : List Str) (b : Int) (i : Nat),
    (parenScanAux ts b i).1 = [] ∨ ∃ idx, (parenScanAux ts b i).1 = [unmatchedMsg idx] := by
  intro ts
  induction ts with
  | nil => intro b i; left; rfl
  | cons t ts ih =>
    intro b i
    rw [parenScanAux]
    split
    · exact ih (b + 1) (i + 1)
    split
    · split
      · right; exact ⟨i, rfl⟩
      · exact ih (b - 1) (i + 1)
    · exact ih b (i + 1)

/-- Parenthesis diagnostics are never start diagnostics. -/
theorem cntStart_paren (ts : List Str) :
    (parenErrs ts).countP (leadsWith (L "SQL must start")) = 0 := by
  rw [parenErrs]
  rw [List.countP_append]
  have h1 : (parenScanAux ts 0 0).1.countP (leadsWith (L "SQL must start")) = 0 := by
    rcases scanFst_shape ts 0 0 with h | ⟨idx, h⟩
    · rw [h]; rfl
    · rw [h, List.countP_cons, List.countP_nil, not_start_unmatched]
      rfl
  rw [h1]
  split
  · rw [List.countP_cons, List.countP_nil]
    rfl
  · rfl

/-- The trailing-semicolon diagnostic is never a start diagnostic. -/
theorem cntStart_end (ts : List Str) :
    (endErrs ts).countP (leadsWith (L "SQL must start")) = 0 := by
  rw [endErrs]
  split
  · rfl
  · split
    · rfl
    · rw [List.countP_cons, List.countP_nil]
      rfl

/-- Claim C8 (confirmed): for a non-empty merged sequence whose first
token does not case-fold into the valid-start set, the diagnostics start
with the single start diagnostic naming that token (and contain exactly
one diagnostic of that form, whatever the rest of the sequence is); when
the first token is a valid start no start diagnostic appears.
Concretely, `foo bar;` yields `SQL must start with a keyword, got
'foo'.` as its only diagnostic. -/
theorem C8_start_check :
    (∀ (t0 : Str) (rest : List Str), upStr t0 ∉ VALID_STARTS →
        checkSql (t0 :: rest)
          = startMsg t0 :: (parenErrs (t0 :: rest) ++ endErrs (t0 :: rest)) ∧
        (checkSql (t0 :: rest)).countP (leadsWith (L "SQL must start")) = 1) ∧
    (∀ (t0 : Str) (rest : List Str), upStr t0 ∈ VALID_STARTS →
        (checkSql (t0 :: rest)).countP (leadsWith (L "SQL must start")) = 0) ∧
    (formatAndCheck (L "foo bar;")).2 = [startMsg (L "foo")] := by
  refine ⟨?_, ?_, by decide⟩
  · intro t0 rest hns
    have hstart : startErrs (t0 :: rest) = [startMsg t0] := by
      rw [startErrs, if_neg hns]
    constructor
    · rw [checkSql, hstart]
      rfl
    · rw [checkSql, hstart, List.countP_append, List.countP_append]
      rw [cntStart_paren, cntStart_end, List.countP_cons, List.countP_nil, start_startMsg]
      rfl
  · intro t0 rest hs
    rw [checkSql, startErrs, if_pos hs, List.countP_append, List.countP_append]
    rw [cntStart_paren, cntStart_end]
    rfl

/-- Witness for claim C8, at the sequences `foo bar ;` and
`SELECT x ; foo ;` (an invalid later statement start is not flagged). -/
theorem C8_witness :
    checkSql [L "foo", L "bar", [';']]
      = startMsg (L "foo")
        :: (parenErrs [L "foo", L "bar", [';']] ++ endErrs [L "foo", L "bar", [';']]) ∧
    (checkSql [L "SELECT", L "x", [';'], L "foo", [';']]).countP
      (leadsWith (L "SQL must start")) = 0 :=
  ⟨(C8_start_check.1 (L "foo") [L "bar", [';']] (by decide)).1,
   C8_start_check.2.1 (L "SELECT") [L "x", [';'], L "foo", [';']] (by decide)⟩

/-! ### Totality of the engine (claim C2) -/

theorem appendLastTokC_eq : ∀ (l : List Str) (suf : Str), l ≠ [] →
    appendLastTokC l suf = some (appendLastTok l suf) := by
  intro l
  induction l with
  | nil => intro suf h; exact absurd rfl h
  | cons x xs ih =>
    intro suf _
    cases xs with
    | nil => rfl
    | cons y ys =>
      rw [appendLastTokC, appendLastTok, ih suf (by simp)]
      · rfl
      all_goals simp

theorem semiLastLineC_eq : ∀ l : List Str, l ≠ [] →
    semiLastLineC l = some (semiLastLine l) := by
  intro l
  induction l with
  | nil => intro h; exact absurd rfl h
  | cons x xs ih =>
    cases xs with
    | nil => intro _; rfl
    | cons y ys =>
      intro _
      rw [semiLastLineC, semiLastLine, ih (by simp)]
      · rfl
      all_goals simp

theorem getLastC_eq : ∀ l : List Str, getLastC l = l.getLast? := by
  intro l
  induction l with
  | nil => rfl
  | cons x xs ih =>
    cases xs with
    | nil => rfl
    | cons y ys =>
      rw [getLastC, ih, List.getLast?_cons_cons]
      all_goals simp

/-- Every loop iteration of the fallible formatter succeeds and agrees
with the total one: each partial access is guarded in the source. -/
theorem stepTokC_eq (st : St) (tok : Str) : stepTokC st tok = some (stepTok st tok) := by
  rw [stepTokC, stepTok]
  by_cases h1 : tok ∈ CLAUSE_KEYWORDS ∧ ¬(st.inGrant ∧ tok ∈ PRIVS)
  · rw [if_pos h1, if_pos h1]
  rw [if_neg h1, if_neg h1]
  by_cases h2 : tok = [',']
  · rw [if_pos h2, if_pos h2]
    by_cases hc : st.cur ≠ []
    · rw [if_pos hc, if_pos hc, appendLastTokC_eq _ _ hc]
      rfl
    · rw [if_neg hc, if_neg hc]
      rfl
  rw [if_neg h2, if_neg h2]
  by_cases h3 : tok = ['(']
  · rw [if_pos h3, if_pos h3]
  rw [if_neg h3, if_neg h3]
  by_cases h4 : tok = [')']
  · rw [if_pos h4, if_pos h4]
  rw [if_neg h4, if_neg h4]
  by_cases h5 : tok = [';']
  · rw [if_pos h5, if_pos h5]
    by_cases hc : st.cur ≠ []
    · rw [if_pos hc, if_pos hc, appendLastTokC_eq _ _ hc]
      rfl
    · rw [if_neg hc, if_neg hc]
      by_cases hl : st.lines ≠ []
      · rw [if_pos hl, semiLastLineC_eq _ hl]
        rfl
      · rw [if_neg hl]
        simp only [ne_eq, not_not] at hl
        simp only [Option.map_some']
        have : semiLastLine st.lines = st.lines := by rw [hl]; rfl
        rw [this]
  rw [if_neg h5, if_neg h5]
  by_cases h6 : st.inGrant ∧ (tok = L "ON" ∨ tok = L "TO")
  · rw [if_pos h6, if_pos h6]
  · rw [if_neg h6, if_neg h6]

theorem foldlM_stepTok_eq : ∀ (ts : List Str) (st : St),
    List.foldlM stepTokC st ts = some (List.foldl stepTok st ts) := by
  intro ts
  induction ts with
  | nil => intro st; rfl
  | cons t ts ih =>
    intro st
    rw [List.foldlM_cons, stepTokC_eq]
    simpa using ih (stepTok st t)

theorem startErrsC_eq : ∀ ts : List Str, startErrsC ts = some (startErrs ts) := by
  intro ts
  cases ts with
  | nil => rfl
  | cons t rest => rfl

theorem endErrsC_eq : ∀ ts : List Str, endErrsC ts = some (endErrs ts) := by
  intro ts
  cases ts with
  | nil => rfl
  | cons t rest =>
    rw [endErrsC, endErrs, if_pos (by simp), getLastC_eq]
    cases hl : (t :: rest).getLast? with
    | none => exact absurd (List.getLast?_eq_none_iff.1 hl) (by simp)
    | some x => rfl

theorem checkSqlC_eq (ts : List Str) : checkSqlC ts = some (checkSql ts) := by
  rw [checkSqlC, startErrsC_eq, endErrsC_eq, checkSql]
  rfl

/-- Claim C2 (confirmed): on every input the engine with fallible list
accesses succeeds — no guarded partial operation ever fails — and
returns exactly the pair of the total embedding: `format_and_check`
always terminates with a (formatted, diagnostics) result. -/
theorem C2_format_and_check_total (s : Str) :
    formatAndCheckC s = some (formatAndCheck s) := by
  rw [formatAndCheckC, formatAndCheck, formatTokensC, foldlM_stepTok_eq,
    checkSqlC_eq]
  rfl

/-! ### The keyword merger (claim C4) -/

theorem mergeC_nil : mergeCompounds ([] : List Str) = [] := by
  conv_lhs => rw [mergeCompounds]

theorem mergeC_one (t0 : Str) :
    mergeCompounds [t0] = [if upStr t0 ∈ KEYWORDS then upStr t0 else t0] := by
  conv_lhs => rw [mergeCompounds]

theorem mergeC_two (t0 t1 : Str) :
    mergeCompounds [t0, t1]
      = if upStr t0 ++ ' ' :: upStr t1 ∈ KEYWORDS then
          [upStr t0 ++ ' ' :: upStr t1]
        else
          (if upStr t0 ∈ KEYWORDS then upStr t0 else t0) :: mergeCompounds [t1] := by
  conv_lhs => rw [mergeCompounds]

theorem mergeC_big (t0 t1 t2 : Str) (rest2 : List Str) :
    mergeCompounds (t0 :: t1 :: t2 :: rest2)
      = if upStr t0 ++ ' ' :: upStr t1 ++ ' ' :: upStr t2 ∈ KEYWORDS then
          (upStr t0 ++ ' ' :: upStr t1 ++ ' ' :: upStr t2) :: mergeCompounds rest2
        else if upStr t0 ++ ' ' :: upStr t1 ∈ KEYWORDS then
          (upStr t0 ++ ' ' :: upStr t1) :: mergeCompounds (t2 :: rest2)
        else
          (if upStr t0 ∈ KEYWORDS then upStr t0 else t0)
            :: mergeCompounds (t1 :: t2 :: rest2) := by
  conv_lhs => rw [mergeCompounds]

/-- Every keyword phrase of the formatter has at most one space (there
are no 3-word phrases in the table). -/
theorem kwSpaceCount : ∀ k ∈ KEYWORDS, k.count ' ' ≤ 1 := by decide

/-- A 3-token window (it contains two separating spaces) never matches a
keyword phrase. -/
theorem not_kw_two_spaces (A B C : Str) : (A ++ ' ' :: B ++ ' ' :: C) ∉ KEYWORDS := by
  intro hmem
  have h := kwSpaceCount _ hmem
  simp [List.count_append, List.count_cons] at h
  omega

/-- The generic longest-match property for a 2-word keyword phrase
`w1 w2` whose first word ends no other phrase: wherever two adjacent
tokens case-fold to `w1`, `w2`, the merger emits the single merged
token. -/
theorem merge_pair_general (w1 w2 : Str)
    (hpair : w1 ++ ' ' :: w2 ∈ KEYWORDS)
    (hsuf : ∀ k ∈ KEYWORDS, ¬((' ' :: w1) <:+ k)) :
    ∀ (ts1 : List Str) (g b : Str) (ts2 : List Str),
      upStr g = w1 → upStr b = w2 →
      ∃ us1, mergeCompounds (ts1 ++ g :: b :: ts2)
        = us1 ++ (w1 ++ ' ' :: w2) :: mergeCompounds ts2 := by
  intro ts1
  induction ts1 using list_length_ind with
  | step ts1 ih =>
    intro g b ts2 hg hb
    match ts1 with
    | [] =>
      cases ts2 with
      | nil =>
        refine ⟨[], ?_⟩
        rw [List.nil_append, mergeC_two, hg, hb, if_pos hpair, mergeC_nil]
        rfl
      | cons t ts2' =>
        refine ⟨[], ?_⟩
        rw [List.nil_append, mergeC_big, hg, hb,
          if_neg (not_kw_two_spaces w1 w2 (upStr t)), if_pos hpair]
        rfl
    | [a] =>
      have hw2 : upStr a ++ ' ' :: w1 ∉ KEYWORDS := fun hmem =>
        hsuf _ hmem ⟨upStr a, rfl⟩
      obtain ⟨us1, heq⟩ := ih [] (by simp) g b ts2 hg hb
      rw [List.nil_append] at heq
      refine ⟨(if upStr a ∈ KEYWORDS then upStr a else a) :: us1, ?_⟩
      rw [List.cons_append, List.nil_append, mergeC_big, hg, hb,
        if_neg (not_kw_two_spaces _ _ _), if_neg hw2, heq]
      rfl
    | a :: a2 :: rest1 =>
      cases rest1 with
      | nil =>
        rw [List.cons_append, List.cons_append, List.nil_append, mergeC_big, hg]
        rw [if_neg (not_kw_two_spaces _ _ _)]
        by_cases hw2 : upStr a ++ ' ' :: upStr a2 ∈ KEYWORDS
        · obtain ⟨us1, heq⟩ := ih [] (by simp) g b ts2 hg hb
          rw [List.nil_append] at heq
          refine ⟨(upStr a ++ ' ' :: upStr a2) :: us1, ?_⟩
          rw [if_pos hw2, heq]
          rfl
        · obtain ⟨us1, heq⟩ := ih [a2] (by simp) g b ts2 hg hb
          rw [List.cons_append, List.nil_append] at heq
          refine ⟨(if upStr a ∈ KEYWORDS then upStr a else a) :: us1, ?_⟩
          rw [if_neg hw2, heq]
          rfl
      | cons r rest1' =>
        rw [List.cons_append, List.cons_append, List.cons_append, mergeC_big]
        rw [if_neg (not_kw_two_spaces _ _ _)]
        by_cases hw2 : upStr a ++ ' ' :: upStr a2 ∈ KEYWORDS
        · obtain ⟨us1, heq⟩ := ih (r :: rest1') (by simp) g b ts2 hg hb
          rw [List.cons_append] at heq
          refine ⟨(upStr a ++ ' ' :: upStr a2) :: us1, ?_⟩
          rw [if_pos hw2, heq]
          rfl
        · obtain ⟨us1, heq⟩ := ih (a2 :: r :: rest1') (by simp) g b ts2 hg hb
          rw [List.cons_append, List.cons_append] at heq
          refine ⟨(if upStr a ∈ KEYWORDS then upStr a else a) :: us1, ?_⟩
          rw [if_neg hw2, heq]
          rfl

/-- Claim C4 (confirmed): the merger is greedy longest-match-first, and
in particular two adjacent tokens case-folding to `GROUP`, `BY` are
always emitted as the single merged token `GROUP BY` (never as `GROUP`
followed by `BY`), and adjacent `PRIMARY`, `KEY` always merge into
`PRIMARY KEY` before any single-word fallback. -/
theorem C4_longest_match_merging :
    (∀ (ts1 : List Str) (g b : Str) (ts2 : List Str),
        upStr g = L "GROUP" → upStr b = L "BY" →
        ∃ us1, mergeCompounds (ts1 ++ g :: b :: ts2)
          = us1 ++ L "GROUP BY" :: mergeCompounds ts2) ∧
    (∀ (ts1 : List Str) (p k : Str) (ts2 : List Str),
        upStr p = L "PRIMARY" → upStr k = L "KEY" →
        ∃ us1, mergeCompounds (ts1 ++ p :: k :: ts2)
          = us1 ++ L "PRIMARY KEY" :: mergeCompounds ts2) := by
  constructor
  · have h : L "GROUP" ++ ' ' :: L "BY" = L "GROUP BY" := by decide
    intro ts1 g b ts2 hg hb
    obtain ⟨us1, heq⟩ := merge_pair_general (L "GROUP") (L "BY") (by decide) (by decide)
      ts1 g b ts2 hg hb
    exact ⟨us1, by rw [heq, h]⟩
  · have h : L "PRIMARY" ++ ' ' :: L "KEY" = L "PRIMARY KEY" := by decide
    intro ts1 p k ts2 hp hk
    obtain ⟨us1, heq⟩ := merge_pair_general (L "PRIMARY") (L "KEY") (by decide) (by decide)
      ts1 p k ts2 hp hk
    exact ⟨us1, by rw [heq, h]⟩

/-- Witness for claim C4, at the token sequences `group By` and
`FROM PrImArY kEy`. -/
theorem C4_witness :
    (∃ us1, mergeCompounds ([] ++ L "group" :: L "By" :: [])
      = us1 ++ L "GROUP BY" :: mergeCompounds []) ∧
    (∃ us1, mergeCompounds ([L "FROM"] ++ L "PrImArY" :: L "kEy" :: [])
      = us1 ++ L "PRIMARY KEY" :: mergeCompounds []) :=
  ⟨C4_longest_match_merging.1 [] (L "group") (L "By") [] (by decide) (by decide),
   C4_longest_match_merging.2 [L "FROM"] (L "PrImArY") (L "kEy") [] (by decide) (by decide)⟩

/-! ### Lossless classification (claim C1) -/

theorem toNat_ofNat_lt {m : Nat} (h : m < 55296) : (Char.ofNat m).toNat = m := by
  unfold Char.ofNat
  rw [dif_pos (Or.inl h : m.isValidChar)]
  rfl

theorem upChar_idem (c : Char) : upChar (upChar c) = upChar c := by
  by_cases h : 97 ≤ c.toNat ∧ c.toNat ≤ 122
  · have h1 : upChar c = Char.ofNat (c.toNat - 32) := by rw [upChar, if_pos h]
    have h2 : (Char.ofNat (c.toNat - 32)).toNat = c.toNat - 32 := toNat_ofNat_lt (by omega)
    rw [h1, upChar, if_neg (by rw [h2]; omega)]
  · have h1 : upChar c = c := by rw [upChar, if_neg h]
    rw [h1, h1]

theorem upStr_idem (s : Str) : upStr (upStr s) = upStr s := by
  simp only [upStr, List.map_map, Function.comp_def, upChar_idem]

theorem upStr_append (a b : Str) : upStr (a ++ b) = upStr a ++ upStr b :=
  List.map_append _ _ _

theorem concatRaw_append (a b : List (HKind × Str)) :
    concatRaw (a ++ b) = concatRaw a ++ concatRaw b := by
  simp [concatRaw]

theorem concatRaw_cons (t : HKind × Str) (ts : List (HKind × Str)) :
    concatRaw (t :: ts) = t.2 ++ concatRaw ts := by
  simp [concatRaw]

theorem concatRaw_nil : concatRaw [] = [] := rfl

theorem upStr_nil : upStr [] = [] := rfl

theorem upStr_mkTok (k : HKind) (s : Str) : upStr (mkTok k s).2 = upStr s := by
  by_cases h1 : k = HKind.ident
  · rw [mkTok, if_pos h1]
    by_cases h2 : upStr s ∈ HKEYWORDS
    · rw [if_pos h2]; exact upStr_idem s
    · rw [if_neg h2]
  · rw [mkTok, if_neg h1]

theorem mkTok_not_kw {k : HKind} {s : Str} (h : (mkTok k s).1 ≠ HKind.keyword) :
    (mkTok k s).2 = s := by
  by_cases h1 : k = HKind.ident
  · rw [mkTok, if_pos h1] at h ⊢
    by_cases h2 : upStr s ∈ HKEYWORDS
    · rw [if_pos h2] at h; exact absurd rfl h
    · rw [if_neg h2]
  · rw [mkTok, if_neg h1]

theorem hTok_nil (gap : Str) :
    hTokenizeAux gap [] = if gap = [] then [] else [(HKind.ident, gap)] := by
  conv_lhs => rw [hTokenizeAux]

theorem hTok_cons_match (gap c cs kn) (h : tokStep (c :: cs) = some kn) :
    hTokenizeAux gap (c :: cs)
      = (if gap = [] then [] else [(HKind.ident, gap)]) ++
          (mkTok kn.1 ((c :: cs).take kn.2) :: hTokenizeAux [] ((c :: cs).drop kn.2)) := by
  conv_lhs => rw [hTokenizeAux]
  split
  · rename_i kn' heq
    rw [h] at heq
    cases Option.some.inj heq
    rfl
  · rename_i heq
    rw [h] at heq
    exact Option.noConfusion heq

theorem hTok_cons_gap (gap c cs) (h : tokStep (c :: cs) = none) :
    hTokenizeAux gap (c :: cs) = hTokenizeAux (gap ++ [c]) cs := by
  conv_lhs => rw [hTokenizeAux]
  split
  · rename_i kn' heq
    rw [h] at heq
    exact Option.noConfusion heq
  · rfl

theorem concatRaw_gapFlush (gap : Str) :
    concatRaw (if gap = [] then [] else [(HKind.ident, gap)]) = gap := by
  split
  · rename_i hg; rw [hg]; rfl
  · rw [concatRaw_cons, concatRaw_nil, List.append_nil]

theorem hTok_upper : ∀ (l gap : Str),
    upStr (concatRaw (hTokenizeAux gap l)) = upStr gap ++ upStr l := by
  intro l
  induction l using list_length_ind with
  | step l ih =>
    intro gap
    match l with
    | [] =>
      rw [hTok_nil, concatRaw_gapFlush, upStr_nil, List.append_nil]
    | c :: cs =>
      cases hstep : tokStep (c :: cs) with
      | some kn =>
        have hpos := tokStep_pos hstep
        have hrec := ih ((c :: cs).drop kn.2)
          (by simp only [List.length_drop]; omega) []
        rw [hTok_cons_match _ _ _ _ hstep, concatRaw_append, concatRaw_cons,
          concatRaw_gapFlush, upStr_append, upStr_append, upStr_mkTok, hrec,
          upStr_nil, List.nil_append, ← upStr_append, List.take_append_drop]
      | none =>
        rw [hTok_cons_gap _ _ _ hstep, ih cs (by simp) (gap ++ [c]), upStr_append,
          List.append_assoc, ← upStr_append]
        rfl

theorem hTok_exact : ∀ (l gap : Str),
    (∀ t ∈ hTokenizeAux gap l, t.1 ≠ HKind.keyword) →
    concatRaw (hTokenizeAux gap l) = gap ++ l := by
  intro l
  induction l using list_length_ind with
  | step l ih =>
    intro gap hkw
    match l with
    | [] =>
      rw [hTok_nil, concatRaw_gapFlush, List.append_nil]
    | c :: cs =>
      cases hstep : tokStep (c :: cs) with
      | some kn =>
        have hpos := tokStep_pos hstep
        rw [hTok_cons_match _ _ _ _ hstep] at hkw ⊢
        have hmem : mkTok kn.1 ((c :: cs).take kn.2)
            ∈ (if gap = [] then [] else [(HKind.ident, gap)]) ++
              (mkTok kn.1 ((c :: cs).take kn.2) :: hTokenizeAux [] ((c :: cs).drop kn.2)) := by
          apply List.mem_append_right
          exact List.mem_cons_self _ _
        have htext := mkTok_not_kw (hkw _ hmem)
        have hrec := ih ((c :: cs).drop kn.2)
          (by simp only [List.length_drop]; omega) []
          (by
            intro t ht
            exact hkw t (List.mem_append_right _ (List.mem_cons_of_mem _ ht)))
        rw [List.nil_append] at hrec
        rw [concatRaw_append, concatRaw_cons, concatRaw_gapFlush, htext, hrec,
          List.take_append_drop]
      | none =>
        rw [hTok_cons_gap _ _ _ hstep] at hkw ⊢
        rw [ih cs (by simp) (gap ++ [c]) hkw, List.append_assoc]
        rfl

/-- Counterexample to claim C1: the lexer stores the uppercased display
form as the text of a keyword token, so concatenating the token texts of
`select` yields `SELECT`, not the input. -/
theorem C1_counterexample : concatRaw (hTokenize (L "select")) ≠ L "select" := by decide

/-- Claim C1 amended: concatenating the token texts reproduces the input
up to ASCII uppercasing of the keyword tokens — the concatenation always
equals the input after case-folding both sides, and it equals the input
exactly whenever no keyword token is produced (in particular every
unmatched span is emitted verbatim as a fallback identifier token). -/
theorem C1_lossless_up_to_keyword_case (s : Str) :
    upStr (concatRaw (hTokenize s)) = upStr s ∧
    ((∀ t ∈ hTokenize s, t.1 ≠ HKind.keyword) → concatRaw (hTokenize s) = s) := by
  constructor
  · have h := hTok_upper s []
    simpa [hTokenize] using h
  · intro hkw
    have h := hTok_exact s [] hkw
    simpa [hTokenize] using h

/-- Witness for the amended claim C1, at the keyword-free input
`x + 1;`. -/
theorem C1_witness : concatRaw (hTokenize (L "x + 1;")) = L "x + 1;" :=
  (C1_lossless_up_to_keyword_case (L "x + 1;")).2 (by decide)

/-! ### Idempotent formatting (claim C3)

The development below proves that re-running the engine on its own
output reproduces it.  The three key steps are:

* re-tokenizing the formatted text recovers exactly the sub-sequence of
  merged tokens that reached the output (`tokenize_formatTokens`),
* the merger is stable on that word stream (`merge_stable`),
* the dropped tokens were no-ops of the state machine, so formatting the
  emitted sub-sequence gives the same text (`formatTokens_emitRun`). -/

theorem padF_append (a b : Str) : padF (a ++ b) = padF a ++ padF b := by
  simp [padF]

theorem padF_cons (c : Char) (s : Str) :
    padF (c :: s) = (if isPadC c then [' ', c, ' '] else [c]) ++ padF s := by
  simp [padF]

theorem padF_noPad : ∀ {t : Str}, (∀ c ∈ t, ¬(isPadC c = true)) → padF t = t := by
  intro t
  induction t with
  | nil => intro _; rfl
  | cons c cs ih =>
    intro h
    rw [padF_cons, if_neg (h c (by simp)), ih (fun c' hc' => h c' (List.mem_cons_of_mem _ hc'))]
    rfl

theorem sp_not_pad {c : Char} (hc : isSpC c = true) : ¬(isPadC c = true) := by
  simp only [isSpC, Bool.or_eq_true, decide_eq_true_eq] at hc
  rcases hc with ((((h | h) | h) | h) | h) | h
  · subst h; decide
  · subst h; decide
  · subst h; decide
  · subst h; decide
  · intro hp
    simp only [isPadC, Bool.or_eq_true, decide_eq_true_eq] at hp
    rcases hp with ((h' | h') | h') | h' <;> (subst h'; simp at h)
  · intro hp
    simp only [isPadC, Bool.or_eq_true, decide_eq_true_eq] at hp
    rcases hp with ((h' | h') | h') | h' <;> (subst h'; simp at h)

theorem pad_not_sp {c : Char} (hc : isPadC c = true) : ¬(isSpC c = true) :=
  fun hs => sp_not_pad hs hc

theorem splitWsAux_sp {c : Char} (hc : isSpC c = true) (cur l : Str) :
    splitWsAux cur (c :: l) = (if cur = [] then [] else [cur]) ++ splitWsAux [] l := by
  rw [splitWsAux, if_pos hc]

theorem splitWsAux_nonsp {c : Char} (hc : ¬(isSpC c = true)) (cur l : Str) :
    splitWsAux cur (c :: l) = splitWsAux (cur ++ [c]) l := by
  rw [splitWsAux, if_neg hc]

theorem splitWsAux_append_sp : ∀ (xs : Str) {c : Char}, isSpC c = true → ∀ (cur ys : Str),
    splitWsAux cur (xs ++ c :: ys) = splitWsAux cur xs ++ splitWsAux [] ys := by
  intro xs
  induction xs with
  | nil =>
    intro c hc cur ys
    rw [List.nil_append, splitWsAux_sp hc]
    congr 1
  | cons x xs ih =>
    intro c hc cur ys
    by_cases hx : isSpC x
    · rw [List.cons_append, splitWsAux_sp hx, splitWsAux_sp hx, ih hc, List.append_assoc]
    · rw [List.cons_append, splitWsAux_nonsp hx, splitWsAux_nonsp hx, ih hc]

theorem splitWsAux_word : ∀ (w : Str), (∀ c ∈ w, ¬(isSpC c = true)) → ∀ (cur ys : Str),
    splitWsAux cur (w ++ ys) = splitWsAux (cur ++ w) ys := by
  intro w
  induction w with
  | nil => intro _ cur ys; rw [List.nil_append, List.append_nil]
  | cons x w' ih =>
    intro h cur ys
    rw [List.cons_append, splitWsAux_nonsp (h x (by simp)),
      ih (fun c hc => h c (List.mem_cons_of_mem _ hc)), List.append_assoc]
    rfl

theorem splitWs_joinSp : ∀ (ws : List Str),
    (∀ w ∈ ws, w ≠ [] ∧ ∀ c ∈ w, ¬(isSpC c = true)) → splitWs (joinSp ws) = ws := by
  intro ws
  induction ws with
  | nil => intro _; rfl
  | cons w ws' ih =>
    intro h
    cases ws' with
    | nil =>
      rw [joinSp, splitWs]
      have hw := h w (by simp)
      rw [show w = w ++ [] from (List.append_nil w).symm, splitWsAux_word w hw.2,
        List.nil_append, splitWsAux, if_neg (by simpa using hw.1)]
      simp
    | cons w2 ws'' =>
      rw [joinSp, splitWs, splitWsAux_word w (h w (by simp)).2, List.nil_append,
        splitWsAux_sp (by decide), if_neg (by simpa using (h w (by simp)).1)]
      have := ih (fun x hx => h x (List.mem_cons_of_mem _ hx))
      rw [splitWs] at this
      rw [this]
      · rfl
      all_goals simp

theorem tokenize_append_sp {c : Char} (hc : isSpC c = true) (a b : Str) :
    tokenize (a ++ c :: b) = tokenize a ++ tokenize b := by
  rw [tokenize, tokenize, tokenize, padF_append, padF_cons, if_neg (sp_not_pad hc),
    List.singleton_append, splitWs, splitWs, splitWs, splitWsAux_append_sp _ hc]

theorem tokenize_sp_pre : ∀ (z : Str), (∀ c ∈ z, isSpC c = true) → ∀ y,
    tokenize (z ++ y) = tokenize y := by
  intro z
  induction z with
  | nil => intro _ y; rfl
  | cons c z' ih =>
    intro h y
    have : (c :: z') ++ y = [] ++ c :: (z' ++ y) := rfl
    rw [this, tokenize_append_sp (h c (by simp))]
    rw [ih (fun c' hc' => h c' (List.mem_cons_of_mem _ hc'))]
    rfl

theorem tokenize_sp_suffix : ∀ (z : Str), (∀ c ∈ z, isSpC c = true) → ∀ y,
    tokenize (y ++ z) = tokenize y := by
  intro z
  induction z with
  | nil => intro _ y; rw [List.append_nil]
  | cons c z' ih =>
    intro h y
    rw [tokenize_append_sp (h c (by simp))]
    have hz : tokenize z' = [] := by
      have := tokenize_sp_pre z' (fun c' hc' => h c' (List.mem_cons_of_mem _ hc')) []
      rw [List.append_nil] at this
      exact this
    rw [hz, List.append_nil]

theorem tokenize_lstrip (x : Str) : tokenize (lstripWs x) = tokenize x := by
  conv_rhs => rw [show x = x.takeWhile isSpC ++ x.dropWhile isSpC from
    (List.takeWhile_append_dropWhile _ _).symm]
  rw [tokenize_sp_pre _ (fun c hc => List.mem_takeWhile_imp hc)]
  rfl

theorem tokenize_rstrip (x : Str) : tokenize (rstripWs x) = tokenize x := by
  conv_rhs => rw [show x = rstripWs x ++ (x.reverse.takeWhile isSpC).reverse by
    rw [rstripWs, ← List.reverse_append, List.takeWhile_append_dropWhile, List.reverse_reverse]]
  rw [tokenize_sp_suffix _ (fun c hc => List.mem_takeWhile_imp (List.mem_reverse.1 hc))]

theorem tokenize_strip (x : Str) : tokenize (stripWs x) = tokenize x := by
  rw [stripWs, tokenize_rstrip, tokenize_lstrip]

theorem tokenize_word {t : Str} (hne : t ≠ [])
    (h : ∀ c ∈ t, ¬(isSpC c = true) ∧ ¬(isPadC c = true)) : tokenize t = [t] := by
  rw [tokenize, padF_noPad (fun c hc => (h c hc).2), splitWs,
    show t = t ++ [] from (List.append_nil t).symm,
    splitWsAux_word t (fun c hc => (h c hc).1), List.nil_append, List.append_nil,
    splitWsAux, if_neg (by simpa using hne)]

theorem tokenize_append_punct (x : Str) {p : Char} (hp : isPadC p = true) :
    tokenize (x ++ [p]) = tokenize x ++ [[p]] := by
  rw [tokenize, tokenize, padF_append, padF_cons, if_pos hp]
  rw [show (([' ', p, ' '] ++ padF []) : Str) = ' ' :: ([p] ++ (' ' :: [])) from rfl]
  rw [splitWs, splitWs, splitWsAux_append_sp _ (by decide)]
  congr 1
  rw [splitWsAux_word [p] (by intro c hc; simp at hc; rw [hc]; exact pad_not_sp hp),
    List.nil_append, splitWsAux_sp (by decide), splitWsAux]
  rw [if_neg (by simp)]
  rfl

theorem tokenize_punct {p : Char} (hp : isPadC p = true) : tokenize [p] = [[p]] := by
  have := tokenize_append_punct [] hp
  rwa [List.nil_append] at this

theorem tokenize_joinSp : ∀ (l : List Str), tokenize (joinSp l) = l.flatMap tokenize := by
  intro l
  induction l with
  | nil => rfl
  | cons x l' ih =>
    cases l' with
    | nil => rw [joinSp]; simp
    | cons y l'' =>
      rw [joinSp, tokenize_append_sp (by decide), ih]
      · rfl
      all_goals simp

theorem tokenize_joinNl : ∀ (l : List Str), tokenize (joinNl l) = l.flatMap tokenize := by
  intro l
  induction l with
  | nil => rfl
  | cons x l' ih =>
    cases l' with
    | nil => rw [joinNl]; simp
    | cons y l'' =>
      rw [joinNl, tokenize_append_sp (by decide), ih]
      · rfl
      all_goals simp

theorem indentPre_allsp (n : Nat) : ∀ c ∈ indentPre n, isSpC c = true := by
  intro c hc
  rw [indentPre] at hc
  rw [List.eq_of_mem_replicate hc]
  decide

/-! #### Branch lemmas for one step of the state machine -/

theorem flushLine_nocur {st : St} (h : st.cur = []) : flushLine st = st := by
  rw [flushLine, if_pos h]

theorem flushLine_cur_nil (st : St) : (flushLine st).cur = [] := by
  rw [flushLine]
  split
  · assumption
  · rfl

theorem stepTok_clause {st : St} {tok : Str}
    (h : tok ∈ CLAUSE_KEYWORDS ∧ ¬(st.inGrant ∧ tok ∈ PRIVS)) :
    stepTok st tok
      = { flushLine st with
          cur := (flushLine st).cur ++ [tok]
          inList := if tok ∈ LISTY then true else (flushLine st).inList
          inGrant := decide (tok ∈ GRANTREV) } := by
  rw [stepTok, if_pos h]

theorem tokenize_nil : tokenize [] = [] := rfl

theorem stepTok_comma_nocur {st : St} (h : st.cur = []) : stepTok st [','] = st := by
  rw [stepTok, if_neg (fun hc => (by decide : ([','] : Str) ∉ CLAUSE_KEYWORDS) hc.1),
    if_pos rfl, if_neg (show ¬(st.cur ≠ []) from fun hne => hne h)]
  show (if st.inList = true then flushLine st else st) = st
  rw [flushLine_nocur h, ite_self]

theorem stepTok_comma_cur {st : St} (h : st.cur ≠ []) :
    stepTok st [','] =
      if st.inList then flushLine { st with cur := appendLastTok st.cur [','] }
      else { st with cur := appendLastTok st.cur [','] } := by
  rw [stepTok, if_neg (fun hc => (by decide : ([','] : Str) ∉ CLAUSE_KEYWORDS) hc.1),
    if_pos rfl, if_pos h]

theorem stepTok_open (st : St) :
    stepTok st ['('] =
      { flushLine { st with cur := st.cur ++ [['(']] } with
        ind := (flushLine { st with cur := st.cur ++ [['(']] }).ind + 1 } := by
  rw [stepTok, if_neg (fun hc => (by decide : (['('] : Str) ∉ CLAUSE_KEYWORDS) hc.1),
    if_neg (by decide), if_pos rfl]

theorem stepTok_close (st : St) :
    stepTok st [')'] =
      { flushLine
          { flushLine st with
            ind := (flushLine st).ind - 1
            cur := (flushLine st).cur ++ [[')']] } with
        inList := false } := by
  rw [stepTok, if_neg (fun hc => (by decide : ([')'] : Str) ∉ CLAUSE_KEYWORDS) hc.1),
    if_neg (by decide), if_neg (by decide), if_pos rfl]

theorem stepTok_semi_cur {st : St} (h : st.cur ≠ []) :
    stepTok st [';'] =
      { flushLine { st with cur := appendLastTok st.cur [';'] } with
        lines := (flushLine { st with cur := appendLastTok st.cur [';'] }).lines ++ [[]]
        ind := 0
        inList := false
        inGrant := false } := by
  rw [stepTok, if_neg (fun hc => (by decide : ([';'] : Str) ∉ CLAUSE_KEYWORDS) hc.1),
    if_neg (by decide), if_neg (by decide), if_neg (by decide), if_pos rfl, if_pos h]

theorem stepTok_semi_nocur {st : St} (h : st.cur = []) :
    stepTok st [';'] =
      { st with
        lines := semiLastLine st.lines ++ [[]]
        ind := 0
        inList := false
        inGrant := false } := by
  rw [stepTok, if_neg (fun hc => (by decide : ([';'] : Str) ∉ CLAUSE_KEYWORDS) hc.1),
    if_neg (by decide), if_neg (by decide), if_neg (by decide), if_pos rfl,
    if_neg (by simpa using h)]

theorem stepTok_other {st : St} {tok : Str}
    (h1 : ¬(tok ∈ CLAUSE_KEYWORDS ∧ ¬(st.inGrant ∧ tok ∈ PRIVS)))
    (h2 : tok ≠ [',']) (h3 : tok ≠ ['(']) (h4 : tok ≠ [')']) (h5 : tok ≠ [';']) :
    stepTok st tok =
      if st.inGrant ∧ (tok = L "ON" ∨ tok = L "TO") then
        { st with cur := st.cur ++ [tok], inGrant := false }
      else { st with cur := st.cur ++ [tok] } := by
  rw [stepTok, if_neg h1, if_neg h2, if_neg h3, if_neg h4, if_neg h5]

/-! #### Lemma A: re-tokenizing the output recovers the emitted stream -/

theorem emitTok_of_ne {st : St} {t : Str} (h2 : t ≠ [',']) (h5 : t ≠ [';']) :
    emitTok st t = [t] := by
  rw [emitTok, if_neg]
  rintro (⟨hc, _⟩ | ⟨hc, _⟩)
  · exact h2 hc
  · exact h5 hc

theorem emitTok_comma_cur {st : St} (h : st.cur ≠ []) : emitTok st [','] = [[',']] := by
  rw [emitTok, if_neg]
  rintro (⟨_, hc⟩ | ⟨hc, _⟩)
  · exact h hc
  · exact absurd hc (by decide)

theorem emitTok_comma_nocur {st : St} (h : st.cur = []) : emitTok st [','] = [] := by
  rw [emitTok, if_pos (Or.inl ⟨rfl, h⟩)]

theorem emitTok_semi_keep {st : St} (h : ¬(st.cur = [] ∧ st.lines = [])) :
    emitTok st [';'] = [[';']] := by
  rw [emitTok, if_neg]
  rintro (⟨hc, _⟩ | ⟨_, hcur, hlines⟩)
  · exact absurd hc (by decide)
  · exact h ⟨hcur, hlines⟩

theorem emitTok_semi_drop {st : St} (hc : st.cur = []) (hl : st.lines = []) :
    emitTok st [';'] = [] := by
  rw [emitTok, if_pos (Or.inr ⟨rfl, hc, hl⟩)]

theorem outTok_cur_append (st : St) (x : Str) :
    outTok { st with cur := st.cur ++ [x] } = outTok st ++ tokenize x := by
  rw [outTok, outTok]
  simp [List.append_assoc]

theorem outTok_flush (st : St) : outTok (flushLine st) = outTok st := by
  by_cases h : st.cur = []
  · rw [flushLine_nocur h]
  · rw [flushLine, if_neg h, outTok, outTok]
    have hcur : st.cur.flatMap tokenize = tokenize (stripWs (joinSp st.cur)) := by
      rw [tokenize_strip, tokenize_joinSp]
    simp only
    split
    · rename_i hl
      rw [hl] at hcur
      rw [hcur]
      rfl
    · rw [hcur]
      have : tokenize (indentPre st.ind ++ stripWs (joinSp st.cur))
          = tokenize (stripWs (joinSp st.cur)) :=
        tokenize_sp_pre _ (indentPre_allsp st.ind) _
      simp [this]

theorem flatMap_appendLastTok {p : Char} (hp : isPadC p = true) :
    ∀ (l : List Str), l ≠ [] →
    (appendLastTok l [p]).flatMap tokenize = l.flatMap tokenize ++ [[p]] := by
  intro l
  induction l with
  | nil => intro h; exact absurd rfl h
  | cons x xs ih =>
    intro _
    cases xs with
    | nil =>
      rw [appendLastTok]
      simp [tokenize_append_punct _ hp]
    | cons y ys =>
      rw [appendLastTok]
      · simp only [List.flatMap_cons]
        rw [ih (by simp)]
        simp [List.append_assoc]
      all_goals simp

theorem flatMap_semiLastLine : ∀ (ls : List Str), ls ≠ [] →
    (semiLastLine ls).flatMap tokenize = ls.flatMap tokenize ++ [[';']] := by
  intro ls
  induction ls with
  | nil => intro h; exact absurd rfl h
  | cons x xs ih =>
    intro _
    cases xs with
    | nil =>
      rw [semiLastLine]
      simp [tokenize_append_punct _ (by decide : isPadC ';' = true), tokenize_rstrip]
    | cons y ys =>
      rw [semiLastLine]
      · simp only [List.flatMap_cons]
        rw [ih (by simp)]
        simp [List.append_assoc]
      all_goals simp

theorem outTok_step (st : St) (t : Str) :
    outTok (stepTok st t) = outTok st ++ (emitTok st t).flatMap tokenize := by
  by_cases h1 : t ∈ CLAUSE_KEYWORDS ∧ ¬(st.inGrant ∧ t ∈ PRIVS)
  · have h2 : t ≠ [','] := fun hc => (by decide : ([','] : Str) ∉ CLAUSE_KEYWORDS) (hc ▸ h1.1)
    have h5 : t ≠ [';'] := fun hc => (by decide : ([';'] : Str) ∉ CLAUSE_KEYWORDS) (hc ▸ h1.1)
    rw [stepTok_clause h1, emitTok_of_ne h2 h5]
    have : outTok
        { flushLine st with
          cur := (flushLine st).cur ++ [t]
          inList := if t ∈ LISTY then true else (flushLine st).inList
          inGrant := decide (t ∈ GRANTREV) }
        = outTok { flushLine st with cur := (flushLine st).cur ++ [t] } := rfl
    rw [this, outTok_cur_append, outTok_flush]
    simp
  by_cases h2 : t = [',']
  · subst h2
    by_cases hcur : st.cur = []
    · rw [stepTok_comma_nocur hcur, emitTok_comma_nocur hcur]
      simp
    · rw [stepTok_comma_cur hcur, emitTok_comma_cur hcur]
      have hbase : outTok { st with cur := appendLastTok st.cur [','] }
          = outTok st ++ [[',']] := by
        rw [outTok, outTok]
        rw [flatMap_appendLastTok (by decide) _ hcur]
        simp
      split
      · rw [outTok_flush, hbase]
        simp [tokenize_punct (by decide : isPadC ',' = true)]
      · rw [hbase]
        simp [tokenize_punct (by decide : isPadC ',' = true)]
  by_cases h3 : t = ['(']
  · subst h3
    rw [stepTok_open, emitTok_of_ne (by decide) (by decide)]
    have : outTok
        { flushLine { st with cur := st.cur ++ [['(']] } with
          ind := (flushLine { st with cur := st.cur ++ [['(']] }).ind + 1 }
        = outTok (flushLine { st with cur := st.cur ++ [['(']] }) := rfl
    rw [this, outTok_flush, outTok_cur_append]
    simp [tokenize_punct (by decide : isPadC '(' = true)]
  by_cases h4 : t = [')']
  · subst h4
    rw [stepTok_close, emitTok_of_ne (by decide) (by decide)]
    have heq : outTok
        { flushLine
            { flushLine st with
              ind := (flushLine st).ind - 1
              cur := (flushLine st).cur ++ [[')']] } with
          inList := false }
        = outTok (flushLine
            { flushLine st with
              ind := (flushLine st).ind - 1
              cur := (flushLine st).cur ++ [[')']] }) := rfl
    have heq2 : outTok
          { flushLine st with
            ind := (flushLine st).ind - 1
            cur := (flushLine st).cur ++ [[')']] }
        = outTok { flushLine st with cur := (flushLine st).cur ++ [[')']] } := rfl
    rw [heq, outTok_flush, heq2, outTok_cur_append, outTok_flush]
    simp [tokenize_punct (by decide : isPadC ')' = true)]
  by_cases h5 : t = [';']
  · subst h5
    by_cases hcur : st.cur = []
    · by_cases hlines : st.lines = []
      · rw [stepTok_semi_nocur hcur, emitTok_semi_drop hcur hlines]
        rw [outTok, outTok, hcur, hlines]
        rfl
      · rw [stepTok_semi_nocur hcur, emitTok_semi_keep (fun hc => hlines hc.2)]
        rw [outTok, outTok, hcur]
        simp only [List.flatMap_nil, List.append_nil, List.flatMap_append,
          List.flatMap_cons]
        rw [flatMap_semiLastLine _ hlines]
        simp [tokenize_punct (by decide : isPadC ';' = true), tokenize_nil]
    · rw [stepTok_semi_cur hcur, emitTok_semi_keep (fun hc => hcur hc.1)]
      have heq : outTok
          { flushLine { st with cur := appendLastTok st.cur [';'] } with
            lines := (flushLine { st with cur := appendLastTok st.cur [';'] }).lines ++ [[]]
            ind := 0
            inList := false
            inGrant := false }
          = (flushLine { st with cur := appendLastTok st.cur [';'] }).lines.flatMap tokenize
            ++ (flushLine { st with cur := appendLastTok st.cur [';'] }).cur.flatMap tokenize
            := by
        rw [outTok]
        simp [tokenize_nil]
      rw [heq]
      have : (flushLine { st with cur := appendLastTok st.cur [';'] }).lines.flatMap tokenize
            ++ (flushLine { st with cur := appendLastTok st.cur [';'] }).cur.flatMap tokenize
          = outTok (flushLine { st with cur := appendLastTok st.cur [';'] }) := by
        rw [outTok]
      rw [this, outTok_flush, outTok, outTok]
      rw [flatMap_appendLastTok (by decide) _ hcur]
      simp [tokenize_punct (by decide : isPadC ';' = true), tokenize_nil]
  · rw [stepTok_other h1 h2 h3 h4 h5, emitTok_of_ne h2 h5]
    split
    · have : outTok { st with cur := st.cur ++ [t], inGrant := false }
          = outTok { st with cur := st.cur ++ [t] } := rfl
      rw [this, outTok_cur_append]
      simp
    · rw [outTok_cur_append]
      simp

theorem outTok_run : ∀ (ts : List Str) (st : St),
    outTok (ts.foldl stepTok st) = outTok st ++ (emitRun st ts).flatMap tokenize := by
  intro ts
  induction ts with
  | nil => intro st; simp [emitRun]
  | cons t ts ih =>
    intro st
    rw [List.foldl_cons, ih, outTok_step, emitRun]
    simp [List.append_assoc]

/-- Re-tokenizing the formatted output yields exactly the word streams
of the tokens that reached the output. -/
theorem tokenize_formatTokens (ts : List Str) :
    tokenize (formatTokens ts) = (emitRun st0 ts).flatMap tokenize := by
  rw [formatTokens, tokenize_rstrip, tokenize_joinNl]
  have h := outTok_run ts st0
  have h2 := outTok_flush (ts.foldl stepTok st0)
  rw [h] at h2
  rw [outTok, flushLine_cur_nil] at h2
  simp only [List.flatMap_nil, List.append_nil] at h2
  rw [h2]
  rfl

/-! #### Lemma C: the dropped tokens are no-ops of the state machine -/

theorem HeadOK_punct {p : Char} (hp : isPadC p = true) : HeadOK [p] :=
  ⟨p, [], rfl, pad_not_sp hp⟩

theorem HeadOK_append (t : Str) (suf : Str) (h : HeadOK t) : HeadOK (t ++ suf) := by
  obtain ⟨c, rest, rfl, hc⟩ := h
  exact ⟨c, rest ++ suf, rfl, hc⟩

theorem appendLastTok_ne : ∀ (l : List Str), l ≠ [] → ∀ suf, appendLastTok l suf ≠ [] := by
  intro l
  induction l with
  | nil => intro h; exact absurd rfl h
  | cons x xs _ =>
    intro _ suf
    cases xs with
    | nil => simp [appendLastTok]
    | cons y ys => simp [appendLastTok]

theorem StOK_appendLastTok {st : St} (h : StOK st) (suf : Str) :
    ∀ x ∈ appendLastTok st.cur suf, HeadOK x := by
  have key : ∀ (l : List Str), (∀ x ∈ l, HeadOK x) → ∀ x ∈ appendLastTok l suf, HeadOK x := by
    intro l
    induction l with
    | nil => intro _ x hx; simp [appendLastTok] at hx
    | cons a as ih =>
      intro hl x hx
      cases as with
      | nil =>
        simp [appendLastTok] at hx
        rw [hx]
        exact HeadOK_append a suf (hl a (by simp))
      | cons b bs =>
        rw [appendLastTok] at hx
        · rcases List.mem_cons.1 hx with h1 | h2
          · rw [h1]; exact hl a (by simp)
          · exact ih (fun y hy => hl y (List.mem_cons_of_mem _ hy)) x h2
        all_goals simp
  exact key st.cur h

theorem StOK_appendLastTok2 {st : St} (h : StOK st) (suf : Str) :
    StOK { st with cur := appendLastTok st.cur suf } :=
  fun x hx => StOK_appendLastTok h suf x hx

theorem strip_join_ne : ∀ (cur : List Str), cur ≠ [] → (∀ x ∈ cur, HeadOK x) →
    stripWs (joinSp cur) ≠ [] := by
  intro cur hne hok
  match cur with
  | x :: rest =>
    obtain ⟨c, xs, hx, hc⟩ := hok x (by simp)
    have hjoin : ∃ z, joinSp (x :: rest) = c :: z := by
      cases rest with
      | nil => exact ⟨xs, by rw [joinSp, hx]⟩
      | cons y ys =>
        refine ⟨xs ++ ' ' :: joinSp (y :: ys), ?_⟩
        rw [joinSp]
        · rw [hx]; rfl
        all_goals simp
    obtain ⟨z, hz⟩ := hjoin
    rw [hz, stripWs, lstripWs, List.dropWhile_cons_of_neg (by simpa using hc)]
    intro hcon
    rw [rstripWs] at hcon
    have : ∀ x ∈ (c :: z).reverse, isSpC x = true := by
      have h2 : (c :: z).reverse.dropWhile isSpC = [] := by
        have := congrArg List.reverse hcon
        simpa using this
      exact List.dropWhile_eq_nil_iff.1 h2
    exact hc (this c (by simp))

theorem flushLine_fires {st : St} (hcur : st.cur ≠ []) (hok : StOK st) :
    (flushLine st).lines = st.lines ++ [indentPre st.ind ++ stripWs (joinSp st.cur)] := by
  rw [flushLine, if_neg hcur, if_neg (strip_join_ne st.cur hcur hok)]

theorem StOK_step {st : St} {t : Str} (h : StOK st) (ht : HeadOK t) :
    StOK (stepTok st t) := by
  have hflush : ∀ s : St, StOK (flushLine s) := by
    intro s
    intro x hx
    rw [flushLine_cur_nil] at hx
    simp at hx
  by_cases h1 : t ∈ CLAUSE_KEYWORDS ∧ ¬(st.inGrant ∧ t ∈ PRIVS)
  · rw [stepTok_clause h1]
    intro x hx
    simp only at hx
    rcases List.mem_append.1 hx with h2 | h2
    · exact hflush st x h2
    · simp at h2; rw [h2]; exact ht
  by_cases h2 : t = [',']
  · subst h2
    by_cases hcur : st.cur = []
    · rw [stepTok_comma_nocur hcur]; exact h
    · rw [stepTok_comma_cur hcur]
      split
      · exact hflush _
      · exact StOK_appendLastTok h [',']
  by_cases h3 : t = ['(']
  · subst h3; rw [stepTok_open]; intro x hx; exact hflush _ x hx
  by_cases h4 : t = [')']
  · subst h4; rw [stepTok_close]; intro x hx; exact hflush _ x hx
  by_cases h5 : t = [';']
  · subst h5
    by_cases hcur : st.cur = []
    · rw [stepTok_semi_nocur hcur]
      intro x hx
      exact h x hx
    · rw [stepTok_semi_cur hcur]
      intro x hx
      exact hflush _ x hx
  · rw [stepTok_other h1 h2 h3 h4 h5]
    split
    · intro x hx
      simp only at hx
      rcases List.mem_append.1 hx with hh | hh
      · exact h x hh
      · simp at hh; rw [hh]; exact ht
    · intro x hx
      simp only at hx
      rcases List.mem_append.1 hx with hh | hh
      · exact h x hh
      · simp at hh; rw [hh]; exact ht

theorem NE_step_of_word {st : St} {t : Str} (h : StOK st) (ht : HeadOK t)
    (h2 : t ≠ [',']) (h5 : t ≠ [';']) : NE (stepTok st t) := by
  by_cases h1 : t ∈ CLAUSE_KEYWORDS ∧ ¬(st.inGrant ∧ t ∈ PRIVS)
  · rw [stepTok_clause h1]
    right
    simp
  by_cases h3 : t = ['(']
  · subst h3
    rw [stepTok_open]
    left
    rw [flushLine_fires (by simp)
      (by
        intro x hx
        rcases List.mem_append.1 hx with hh | hh
        · exact h x hh
        · simp at hh; rw [hh]; exact HeadOK_punct (by decide))]
    simp
  by_cases h4 : t = [')']
  · subst h4
    rw [stepTok_close]
    left
    show (flushLine { flushLine st with
      ind := (flushLine st).ind - 1
      cur := (flushLine st).cur ++ [[')']] }).lines ≠ []
    rw [flushLine_fires (by simp)
      (by
        intro x hx
        rcases List.mem_append.1 hx with hh | hh
        · rw [flushLine_cur_nil] at hh; simp at hh
        · simp at hh; rw [hh]; exact HeadOK_punct (by decide))]
    simp
  · rw [stepTok_other h1 h2 h3 h4 h5]
    split
    · right; simp
    · right; simp

theorem NE_step {st : St} {t : Str} (h : StOK st) (ht : HeadOK t) (hne : NE st) :
    NE (stepTok st t) := by
  by_cases h2 : t = [',']
  · subst h2
    by_cases hcur : st.cur = []
    · rw [stepTok_comma_nocur hcur]; exact hne
    · rw [stepTok_comma_cur hcur]
      split
      · left
        rw [flushLine_fires (by simpa using appendLastTok_ne st.cur hcur [','])
          (StOK_appendLastTok2 h [','])]
        simp
      · right
        simpa using appendLastTok_ne st.cur hcur [',']
  by_cases h5 : t = [';']
  · subst h5
    by_cases hcur : st.cur = []
    · rw [stepTok_semi_nocur hcur]; left; simp
    · rw [stepTok_semi_cur hcur]; left; simp
  · exact NE_step_of_word h ht h2 h5

theorem badCommaSemi_semi {t : Str} {us : List Str} (hb : badCommaSemi (t :: us) = false)
    (ht : t = [';']) : False := by
  rw [badCommaSemi, if_neg (by rw [ht]; decide)] at hb
  rw [ht] at hb
  simp at hb

theorem noSemiDrop_aux : ∀ (us : List Str) (st : St), (∀ t ∈ us, HeadOK t) → StOK st →
    (NE st ∨ badCommaSemi us = false) → NoSemiDrop st us := by
  intro us
  induction us with
  | nil => intro st _ _ _; trivial
  | cons t us' ih =>
    intro st hok hst hcase
    constructor
    · rintro ⟨ht, hcur, hlines⟩
      rcases hcase with hne | hb
      · rcases hne with hl | hc
        · exact hl hlines
        · exact hc hcur
      · exact badCommaSemi_semi hb ht
    · apply ih (stepTok st t) (fun x hx => hok x (List.mem_cons_of_mem _ hx))
        (StOK_step hst (hok t (by simp)))
      rcases hcase with hne | hb
      · exact Or.inl (NE_step hst (hok t (by simp)) hne)
      · by_cases hcomma : t = [',']
        · by_cases hcur : st.cur = []
          · rw [hcomma, stepTok_comma_nocur hcur]
            right
            rw [hcomma, badCommaSemi, if_pos rfl] at hb
            exact hb
          · left
            rw [hcomma]
            rw [stepTok_comma_cur hcur]
            split
            · left
              rw [flushLine_fires (by simpa using appendLastTok_ne st.cur hcur [','])
                (StOK_appendLastTok2 hst [','])]
              simp
            · right
              simpa using appendLastTok_ne st.cur hcur [',']
        · have hsemi : t ≠ [';'] := fun hc => badCommaSemi_semi hb hc
          exact Or.inl (NE_step_of_word hst (hok t (by simp)) hcomma hsemi)

/-- Dropped tokens are state no-ops: running the machine over the
emitted sub-sequence reaches the same state. -/
theorem foldl_emitRun : ∀ (us : List Str) (st : St), NoSemiDrop st us →
    (emitRun st us).foldl stepTok st = us.foldl stepTok st := by
  intro us
  induction us with
  | nil => intro st _; rfl
  | cons t us' ih =>
    intro st hns
    obtain ⟨hnot, hrest⟩ := hns
    rw [emitRun]
    by_cases hd : t = [','] ∧ st.cur = []
    · rw [emitTok, if_pos (Or.inl hd)]
      have hstep : stepTok st t = st := by rw [hd.1]; exact stepTok_comma_nocur hd.2
      rw [hstep] at hrest
      rw [List.nil_append, hstep, List.foldl_cons, hstep]
      exact ih st hrest
    · rw [emitTok, if_neg (by rintro (hc | hc); exact hd hc; exact hnot hc)]
      rw [List.cons_append, List.nil_append, List.foldl_cons, List.foldl_cons]
      exact ih (stepTok st t) hrest

/-- Formatting the emitted sub-sequence gives the same text. -/
theorem formatTokens_emitRun (us : List Str) (h : NoSemiDrop st0 us) :
    formatTokens (emitRun st0 us) = formatTokens us := by
  rw [formatTokens, formatTokens, foldl_emitRun us st0 h]

/-! #### Lemma B: the merger is stable on its own output

Character-class facts: keyword phrases consist of uppercase ASCII letters
and at most one separating space, the padded punctuation characters are
fixed points of `upper`, and `upper` never creates whitespace or
punctuation. -/

theorem kwLetters : ∀ k ∈ KEYWORDS, ∀ c ∈ k, (65 ≤ c.toNat ∧ c.toNat ≤ 90) ∨ c = ' ' := by
  decide

theorem spc_forms {c : Char} (h : isSpC c = true) :
    c = ' ' ∨ c = '\t' ∨ c = '\n' ∨ c = '\r' ∨ c.toNat = 11 ∨ c.toNat = 12 := by
  simp only [isSpC, Bool.or_eq_true, decide_eq_true_eq] at h
  tauto

theorem padc_forms {c : Char} (h : isPadC c = true) :
    c = '(' ∨ c = ')' ∨ c = ',' ∨ c = ';' := by
  simp only [isPadC, Bool.or_eq_true, decide_eq_true_eq] at h
  tauto

theorem spc_toNat {c : Char} (h : isSpC c = true) :
    c.toNat = 32 ∨ c.toNat = 9 ∨ c.toNat = 10 ∨ c.toNat = 13 ∨ c.toNat = 11 ∨ c.toNat = 12 := by
  rcases spc_forms h with h | h | h | h | h | h
  · exact Or.inl (by rw [h]; rfl)
  · exact Or.inr (Or.inl (by rw [h]; rfl))
  · exact Or.inr (Or.inr (Or.inl (by rw [h]; rfl)))
  · exact Or.inr (Or.inr (Or.inr (Or.inl (by rw [h]; rfl))))
  · exact Or.inr (Or.inr (Or.inr (Or.inr (Or.inl h))))
  · exact Or.inr (Or.inr (Or.inr (Or.inr (Or.inr h))))

theorem padc_toNat {c : Char} (h : isPadC c = true) :
    c.toNat = 40 ∨ c.toNat = 41 ∨ c.toNat = 44 ∨ c.toNat = 59 := by
  rcases padc_forms h with h | h | h | h
  · exact Or.inl (by rw [h]; rfl)
  · exact Or.inr (Or.inl (by rw [h]; rfl))
  · exact Or.inr (Or.inr (Or.inl (by rw [h]; rfl)))
  · exact Or.inr (Or.inr (Or.inr (by rw [h]; rfl)))

theorem upChar_fix_or_upper (c : Char) :
    upChar c = c ∨ (65 ≤ (upChar c).toNat ∧ (upChar c).toNat ≤ 90) := by
  rw [upChar]
  split
  · rename_i h
    right
    rw [toNat_ofNat_lt (by omega)]
    omega
  · left; rfl

theorem upChar_not_sp {c : Char} (h : ¬(isSpC c = true)) : ¬(isSpC (upChar c) = true) := by
  rcases upChar_fix_or_upper c with he | ⟨h1, h2⟩
  · rw [he]; exact h
  · intro hs
    rcases spc_toNat hs with ht | ht | ht | ht | ht | ht <;> omega

theorem upChar_not_pad {c : Char} (h : ¬(isPadC c = true)) : ¬(isPadC (upChar c) = true) := by
  rcases upChar_fix_or_upper c with he | ⟨h1, h2⟩
  · rw [he]; exact h
  · intro hs
    rcases padc_toNat hs with ht | ht | ht | ht <;> omega

theorem upChar_pad {p : Char} (hp : isPadC p = true) : upChar p = p := by
  rcases padc_forms hp with h | h | h | h <;> rw [h] <;> decide

theorem WordTok_upStr {t : Str} (h : WordTok t) : WordTok (upStr t) := by
  obtain ⟨hne, hch⟩ := h
  constructor
  · intro hmap
    cases t with
    | nil => exact hne rfl
    | cons a as => simp [upStr] at hmap
  · intro c hc
    rw [upStr] at hc
    obtain ⟨d, hd, rfl⟩ := List.mem_map.mp hc
    exact ⟨upChar_not_sp (hch d hd).1, upChar_not_pad (hch d hd).2⟩

theorem PunctTok_pad {t : Str} (h : PunctTok t) : ∃ p, t = [p] ∧ isPadC p = true := by
  rcases h with h | h | h | h <;> exact ⟨_, h, by decide⟩

theorem upStr_punct {t : Str} (h : PunctTok t) : upStr t = t := by
  obtain ⟨p, rfl, hp⟩ := PunctTok_pad h
  simp [upStr, upChar_pad hp]

theorem pad_notin_kw {p : Char} (hp : isPadC p = true) {k : Str} (hk : k ∈ KEYWORDS)
    (hmem : p ∈ k) : False := by
  rcases kwLetters k hk p hmem with ⟨h1, h2⟩ | hsp
  · rcases padc_toNat hp with ht | ht | ht | ht <;> omega
  · rw [hsp] at hp
    exact absurd hp (by decide)

theorem punct_not_kw {t : Str} (h : PunctTok t) (hk : upStr t ∈ KEYWORDS) : False := by
  obtain ⟨p, rfl, hp⟩ := PunctTok_pad h
  rw [show upStr [p] = [p] from by simp [upStr, upChar_pad hp]] at hk
  exact pad_notin_kw hp hk (by simp)

/-- Every coarse token produced by `_tokenize` is a plain word or one of
the four padded punctuation marks. -/
theorem splitWsAux_good : ∀ (l cur : Str),
    (∀ c ∈ cur, ¬(isSpC c = true) ∧ ¬(isPadC c = true)) →
    ∀ w ∈ splitWsAux cur (padF l), WordTok w ∨ PunctTok w := by
  intro l
  induction l with
  | nil =>
    intro cur hcur w hw
    rw [show padF [] = [] from rfl, splitWsAux] at hw
    split at hw
    · simp at hw
    · rename_i hne
      rw [List.mem_singleton] at hw
      subst hw
      exact Or.inl ⟨hne, hcur⟩
  | cons c cs ih =>
    intro cur hcur w hw
    rw [padF_cons] at hw
    by_cases hp : isPadC c = true
    · rw [if_pos hp,
        show ((([' ', c, ' '] : Str) ++ padF cs)) = ' ' :: c :: ' ' :: padF cs from rfl,
        splitWsAux_sp (by decide), splitWsAux_nonsp (pad_not_sp hp), List.nil_append,
        splitWsAux_sp (by decide)] at hw
      rw [List.mem_append, List.mem_append] at hw
      rcases hw with hw | hw | hw
      · split at hw
        · simp at hw
        · rename_i hne
          rw [List.mem_singleton] at hw
          subst hw
          exact Or.inl ⟨hne, hcur⟩
      · rw [show (if ([c] : Str) = [] then ([] : List Str) else [[c]]) = [[c]] from rfl,
          List.mem_singleton] at hw
        subst hw
        rcases padc_forms hp with h | h | h | h
        · exact Or.inr (Or.inl (by rw [h]))
        · exact Or.inr (Or.inr (Or.inl (by rw [h])))
        · exact Or.inr (Or.inr (Or.inr (Or.inl (by rw [h]))))
        · exact Or.inr (Or.inr (Or.inr (Or.inr (by rw [h]))))
      · exact ih [] (by simp) w hw
    · rw [if_neg hp, List.singleton_append] at hw
      by_cases hs : isSpC c = true
      · rw [splitWsAux_sp hs, List.mem_append] at hw
        rcases hw with hw | hw
        · split at hw
          · simp at hw
          · rename_i hne
            rw [List.mem_singleton] at hw
            subst hw
            exact Or.inl ⟨hne, hcur⟩
        · exact ih [] (by simp) w hw
      · rw [splitWsAux_nonsp hs] at hw
        refine ih (cur ++ [c]) ?_ w hw
        intro d hd
        rw [List.mem_append, List.mem_singleton] at hd
        rcases hd with hd | hd
        · exact hcur d hd
        · subst hd; exact ⟨hs, hp⟩

theorem tokenize_good (s : Str) : ∀ w ∈ tokenize s, WordTok w ∨ PunctTok w := by
  intro w hw
  rw [tokenize, splitWs] at hw
  exact splitWsAux_good s [] (by simp) w hw

theorem tokenize_comp {w1 w2 : Str} (h1 : WordTok w1) (h2 : WordTok w2) :
    tokenize (w1 ++ ' ' :: w2) = [w1, w2] := by
  rw [tokenize_append_sp (by decide), tokenize_word h1.1 h1.2, tokenize_word h2.1 h2.2]
  rfl

theorem splitWs_pair {w1 w2 : Str} (h1 : WordTok w1) (h2 : WordTok w2) :
    splitWs (w1 ++ ' ' :: w2) = [w1, w2] := by
  have hpad : padF (w1 ++ ' ' :: w2) = w1 ++ ' ' :: w2 := by
    refine padF_noPad ?_
    intro c hc
    rw [List.mem_append, List.mem_cons] at hc
    rcases hc with hc | hc | hc
    · exact (h1.2 c hc).2
    · subst hc; decide
    · exact (h2.2 c hc).2
  have h := tokenize_comp h1 h2
  rwa [tokenize, hpad] at h

/-- Case analysis on a merger-output token: its own re-tokenization and
the fact that the single-token merge step leaves it unchanged. -/
theorem MTokS_cases {t : Str} (h : MTokS t) :
    (tokenize t = [t] ∧ (if upStr t ∈ KEYWORDS then upStr t else t) = t) ∨
    (∃ w1 w2, t = w1 ++ ' ' :: w2 ∧ tokenize t = [w1, w2] ∧ WordTok w1 ∧ WordTok w2 ∧
      t ∈ KEYWORDS ∧ upStr w1 = w1 ∧ upStr w2 = w2) := by
  rcases h with hp | ⟨hw, hst⟩ | hc
  · obtain ⟨p, hpe, hp'⟩ := PunctTok_pad hp
    subst hpe
    refine Or.inl ⟨tokenize_punct hp', ?_⟩
    have hnot : upStr [p] ∉ KEYWORDS := by
      rw [show upStr [p] = [p] from by simp [upStr, upChar_pad hp']]
      intro hkk
      exact pad_notin_kw hp' hkk (by simp)
    rw [if_neg hnot]
  · refine Or.inl ⟨tokenize_word hw.1 hw.2, ?_⟩
    split
    · rename_i hkk; exact hst hkk
    · rfl
  · obtain ⟨w1, w2, hte, h1, h2, hkk, hu1, hu2⟩ := hc
    exact Or.inr ⟨w1, w2, hte, hte ▸ tokenize_comp h1 h2, h1, h2, hkk, hu1, hu2⟩

theorem MTokS_HeadOK {t : Str} (h : MTokS t) : HeadOK t := by
  rcases h with hp | ⟨⟨hne, hch⟩, _⟩ | ⟨w1, w2, hte, h1, h2, _, _, _⟩
  · obtain ⟨p, rfl, hp'⟩ := PunctTok_pad hp
    exact ⟨p, [], rfl, pad_not_sp hp'⟩
  · cases t with
    | nil => exact absurd rfl hne
    | cons c rest => exact ⟨c, rest, rfl, (hch c (by simp)).1⟩
  · subst hte
    obtain ⟨hne1, hch1⟩ := h1
    cases w1 with
    | nil => exact absurd rfl hne1
    | cons c rest => exact ⟨c, rest ++ ' ' :: w2, by rw [List.cons_append], (hch1 c (by simp)).1⟩

theorem leadsWith_self_append : ∀ (pre rest : Str), leadsWith pre (pre ++ rest) = true := by
  intro pre
  induction pre with
  | nil => intro rest; rfl
  | cons c cs ih =>
    intro rest
    rw [List.cons_append]
    simp [leadsWith, ih]

/-- No second word of a compound keyword phrase opens another keyword
phrase: the merger never chains compounds. -/
theorem noSecondLeads : ∀ w ∈ secondWordsK, ∀ k ∈ KEYWORDS, leadsWith (w ++ [' ']) k = false := by
  decide

theorem noPair_left_punct {a b : Str} (ha : PunctTok a) : noPair a b := by
  obtain ⟨p, rfl, hp⟩ := PunctTok_pad ha
  intro hmem
  rw [show lastW [p] = [p] from by rw [lastW, tokenize_punct hp]; rfl,
    show upStr [p] = [p] from by simp [upStr, upChar_pad hp]] at hmem
  exact pad_notin_kw hp hmem (by simp)

theorem noPair_left_comp {a b : Str} (ha : CompTok a) : noPair a b := by
  obtain ⟨w1, w2, rfl, h1, h2, hkk, hu1, hu2⟩ := ha
  intro hmem
  rw [show lastW (w1 ++ ' ' :: w2) = w2 from by rw [lastW, tokenize_comp h1 h2]; rfl,
    hu2] at hmem
  have hsec : w2 ∈ secondWordsK := by
    rw [secondWordsK]
    refine List.mem_flatMap.mpr ⟨w1 ++ ' ' :: w2, hkk, ?_⟩
    rw [splitWs_pair h1 h2]
    simp
  have hlead := leadsWith_self_append (w2 ++ [' ']) (upStr (firstW b))
  rw [List.append_assoc, List.singleton_append] at hlead
  rw [noSecondLeads w2 hsec _ hmem] at hlead
  exact Bool.noConfusion hlead

theorem pair_word {v x : Str} (hv : WordTok v ∨ PunctTok v) (hx : WordTok x ∨ PunctTok x)
    (hk : upStr v ++ ' ' :: upStr x ∈ KEYWORDS) : WordTok v ∧ WordTok x := by
  constructor
  · rcases hv with hw | hp
    · exact hw
    · exfalso
      obtain ⟨p, rfl, hp'⟩ := PunctTok_pad hp
      refine pad_notin_kw hp' hk (List.mem_append.mpr (Or.inl ?_))
      simp [upStr, upChar_pad hp']
  · rcases hx with hw | hp
    · exact hw
    · exfalso
      obtain ⟨p, rfl, hp'⟩ := PunctTok_pad hp
      refine pad_notin_kw hp' hk (List.mem_append.mpr (Or.inr (List.mem_cons_of_mem _ ?_)))
      simp [upStr, upChar_pad hp']

theorem single_MTokS {v : Str} (hv : WordTok v ∨ PunctTok v) :
    MTokS (if upStr v ∈ KEYWORDS then upStr v else v) := by
  split
  · rename_i hk
    rcases hv with hw | hp
    · exact Or.inr (Or.inl ⟨WordTok_upStr hw, fun _ => upStr_idem v⟩)
    · exact (punct_not_kw hp hk).elim
  · rename_i hk
    rcases hv with hw | hp
    · exact Or.inr (Or.inl ⟨hw, fun h => absurd h hk⟩)
    · exact Or.inl hp

theorem single_tokenize {v : Str} (hv : WordTok v ∨ PunctTok v) :
    tokenize (if upStr v ∈ KEYWORDS then upStr v else v)
      = [if upStr v ∈ KEYWORDS then upStr v else v] := by
  split
  · rename_i hk
    rcases hv with hw | hp
    · have hw' := WordTok_upStr hw
      exact tokenize_word hw'.1 hw'.2
    · exact (punct_not_kw hp hk).elim
  · rcases hv with hw | hp
    · exact tokenize_word hw.1 hw.2
    · obtain ⟨p, rfl, hp'⟩ := PunctTok_pad hp
      exact tokenize_punct hp'

theorem single_upStr (v : Str) :
    upStr (if upStr v ∈ KEYWORDS then upStr v else v) = upStr v := by
  split
  · exact upStr_idem v
  · rfl

/-- The merger's single-token step, when neither window matches. -/
theorem mergeSingleGen {t0 : Str} (rest : List Str)
    (hwin : ∀ x rest', rest = x :: rest' → upStr t0 ++ ' ' :: upStr x ∉ KEYWORDS) :
    mergeCompounds (t0 :: rest)
      = (if upStr t0 ∈ KEYWORDS then upStr t0 else t0) :: mergeCompounds rest := by
  cases rest with
  | nil => rw [mergeC_one, mergeC_nil]
  | cons x rest' =>
    cases rest' with
    | nil => rw [mergeC_two, if_neg (hwin x [] rfl)]
    | cons y rest'' =>
      rw [mergeC_big, if_neg (not_kw_two_spaces _ _ _), if_neg (hwin x _ rfl)]

/-- The merger's 2-token step, when the 2-token window matches. -/
theorem mergePairStep {t0 t1 : Str} (rest : List Str)
    (hk : upStr t0 ++ ' ' :: upStr t1 ∈ KEYWORDS) :
    mergeCompounds (t0 :: t1 :: rest)
      = (upStr t0 ++ ' ' :: upStr t1) :: mergeCompounds rest := by
  cases rest with
  | nil => rw [mergeC_two, if_pos hk, mergeC_nil]
  | cons y rest' => rw [mergeC_big, if_neg (not_kw_two_spaces _ _ _), if_pos hk]

/-- The merger, run on any word/punctuation stream, yields only stable
token shapes, never leaves a keyword pair across a token boundary, and
its head token case-folds to the head of the input. -/
theorem mergeSpec : ∀ (vs : List Str), (∀ t ∈ vs, WordTok t ∨ PunctTok t) →
    (∀ t ∈ mergeCompounds vs, MTokS t) ∧
    List.Chain' noPair (mergeCompounds vs) ∧
    (∀ v rest, vs = v :: rest →
      ∃ f frest, mergeCompounds vs = f :: frest ∧ upStr (firstW f) = upStr v) := by
  refine list_length_ind ?_
  intro vs ih hgood
  match vs with
  | [] =>
    refine ⟨fun t ht => ?_, ?_, fun v rest hvr => ?_⟩
    · rw [mergeC_nil] at ht; exact absurd ht (List.not_mem_nil t)
    · rw [mergeC_nil]; exact List.chain'_nil
    · exact absurd hvr (by simp)
  | [t0] =>
    have h0 := hgood t0 (by simp)
    refine ⟨fun t ht => ?_, ?_, fun v rest hvr => ?_⟩
    · rw [mergeC_one, List.mem_singleton] at ht
      subst ht
      exact single_MTokS h0
    · rw [mergeC_one]
      exact List.chain'_singleton _
    · injection hvr with hv hr
      subst hv
      refine ⟨_, [], mergeC_one t0, ?_⟩
      rw [firstW, single_tokenize h0, List.headD_cons]
      exact single_upStr t0
  | t0 :: t1 :: rest =>
    have h0 := hgood t0 (by simp)
    have h1 := hgood t1 (by simp)
    have hgr : ∀ t ∈ rest, WordTok t ∨ PunctTok t :=
      fun t ht => hgood t (List.mem_cons_of_mem _ (List.mem_cons_of_mem _ ht))
    have hg1 : ∀ t ∈ t1 :: rest, WordTok t ∨ PunctTok t :=
      fun t ht => hgood t (List.mem_cons_of_mem _ ht)
    by_cases hk2 : upStr t0 ++ ' ' :: upStr t1 ∈ KEYWORDS
    · obtain ⟨hw0, hw1⟩ := pair_word h0 h1 hk2
      have hcomp : CompTok (upStr t0 ++ ' ' :: upStr t1) :=
        ⟨upStr t0, upStr t1, rfl, WordTok_upStr hw0, WordTok_upStr hw1, hk2,
          upStr_idem t0, upStr_idem t1⟩
      have hmc := mergePairStep rest hk2
      obtain ⟨ihM, ihC, -⟩ :=
        ih rest (by simp only [List.length_cons]; omega) hgr
      refine ⟨fun t ht => ?_, ?_, fun v vrest hvr => ?_⟩
      · rw [hmc, List.mem_cons] at ht
        rcases ht with ht | ht
        · subst ht; exact Or.inr (Or.inr hcomp)
        · exact ihM t ht
      · rw [hmc]
        exact List.chain'_cons'.mpr ⟨fun y _ => noPair_left_comp hcomp, ihC⟩
      · injection hvr with hv _
        subst hv
        refine ⟨_, _, hmc, ?_⟩
        rw [firstW, tokenize_comp (WordTok_upStr hw0) (WordTok_upStr hw1), List.headD_cons]
        exact upStr_idem t0
    · have hwin : ∀ x rest', (t1 :: rest) = x :: rest' →
          upStr t0 ++ ' ' :: upStr x ∉ KEYWORDS := by
        intro x rest' hx
        injection hx with hx1 _
        subst hx1
        exact hk2
      have hmc := mergeSingleGen (t1 :: rest) hwin
      obtain ⟨ihM, ihC, ihH⟩ :=
        ih (t1 :: rest) (by simp only [List.length_cons]; omega) hg1
      obtain ⟨f, frest, hfe, hfu⟩ := ihH t1 rest rfl
      refine ⟨fun t ht => ?_, ?_, fun v vrest hvr => ?_⟩
      · rw [hmc, List.mem_cons] at ht
        rcases ht with ht | ht
        · subst ht; exact single_MTokS h0
        · exact ihM t ht
      · rw [hmc]
        refine List.chain'_cons'.mpr ⟨?_, ihC⟩
        intro y hy
        rw [Option.mem_def, hfe, List.head?_cons] at hy
        have hyf : y = f := (Option.some.inj hy).symm
        subst hyf
        intro hmem
        rw [show lastW (if upStr t0 ∈ KEYWORDS then upStr t0 else t0)
              = (if upStr t0 ∈ KEYWORDS then upStr t0 else t0) from by
            rw [lastW, single_tokenize h0]; rfl,
          single_upStr, hfu] at hmem
        exact hk2 hmem
      · injection hvr with hv _
        subst hv
        refine ⟨_, _, hmc, ?_⟩
        rw [firstW, single_tokenize h0, List.headD_cons]
        exact single_upStr t0

/-- Merge stability: re-running `_tokenize` + `_merge_compounds` on a
stream of stable tokens with no keyword pair across boundaries is the
identity. -/
theorem merge_stable : ∀ (ws : List Str), (∀ t ∈ ws, MTokS t) →
    List.Chain' noPair ws → mergeCompounds (ws.flatMap tokenize) = ws := by
  intro ws
  induction ws with
  | nil => intro _ _; rw [List.flatMap_nil, mergeC_nil]
  | cons t ws' ih =>
    intro hM hC
    have hMt := hM t (List.mem_cons_self t ws')
    have hhead := (List.chain'_cons'.mp hC).1
    have hC' := (List.chain'_cons'.mp hC).2
    have hM' : ∀ x ∈ ws', MTokS x := fun x hx => hM x (List.mem_cons_of_mem _ hx)
    rw [List.flatMap_cons]
    rcases MTokS_cases hMt with ⟨htok, hself⟩ | ⟨w1, w2, hteq, htok, hw1, hw2, hkk, hu1, hu2⟩
    · rw [htok, List.singleton_append]
      have hwin : ∀ x rest', ws'.flatMap tokenize = x :: rest' →
          upStr t ++ ' ' :: upStr x ∉ KEYWORDS := by
        intro x rest' heq
        cases ws' with
        | nil => rw [List.flatMap_nil] at heq; exact absurd heq (by simp)
        | cons b ws'' =>
          have hMb := hM' b (List.mem_cons_self b ws'')
          have hnp : noPair t b := hhead b rfl
          have hnp' : upStr (lastW t) ++ ' ' :: upStr (firstW b) ∉ KEYWORDS := hnp
          rw [show lastW t = t from by rw [lastW, htok]; rfl] at hnp'
          rcases MTokS_cases hMb with ⟨hbtok, _⟩ | ⟨v1, v2, hbeq, hbtok, _, _, _, _, _⟩
          · rw [List.flatMap_cons, hbtok, List.singleton_append] at heq
            injection heq with hx _
            subst hx
            rw [show firstW b = b from by rw [firstW, hbtok, List.headD_cons]] at hnp'
            exact hnp'
          · rw [List.flatMap_cons, hbtok] at heq
            simp only [List.cons_append, List.nil_append] at heq
            injection heq with hx _
            subst hx
            rw [show firstW b = v1 from by rw [firstW, hbtok, List.headD_cons]] at hnp'
            exact hnp'
      rw [mergeSingleGen _ hwin, hself]
      exact congrArg (List.cons t) (ih hM' hC')
    · subst hteq
      rw [htok]
      simp only [List.cons_append, List.nil_append]
      have hk' : upStr w1 ++ ' ' :: upStr w2 ∈ KEYWORDS := by rw [hu1, hu2]; exact hkk
      rw [mergePairStep _ hk', hu1, hu2]
      exact congrArg (List.cons _) (ih hM' hC')

/-- A token whose processing leaves the pending line empty is one of the
four punctuation marks. -/
theorem stepCur_nil_punct {st : St} {t : Str} (h : (stepTok st t).cur = []) : PunctTok t := by
  by_cases h2 : t = [',']
  · exact Or.inr (Or.inr (Or.inl h2))
  by_cases h3 : t = ['(']
  · exact Or.inl h3
  by_cases h4 : t = [')']
  · exact Or.inr (Or.inl h4)
  by_cases h5 : t = [';']
  · exact Or.inr (Or.inr (Or.inr h5))
  exfalso
  by_cases h1 : t ∈ CLAUSE_KEYWORDS ∧ ¬(st.inGrant ∧ t ∈ PRIVS)
  · rw [stepTok_clause h1] at h
    simp at h
  · rw [stepTok_other h1 h2 h3 h4 h5] at h
    split at h <;> simp at h

theorem emitRun_sublist : ∀ (us : List Str) (st : St), ∀ t ∈ emitRun st us, t ∈ us := by
  intro us
  induction us with
  | nil => intro st t ht; rw [emitRun] at ht; exact absurd ht (List.not_mem_nil t)
  | cons u us' ih =>
    intro st t ht
    rw [emitRun, List.mem_append] at ht
    rcases ht with ht | ht
    · rw [emitTok] at ht
      split at ht
      · exact absurd ht (List.not_mem_nil t)
      · rw [List.mem_singleton] at ht
        subst ht
        exact List.mem_cons_self t us'
    · exact List.mem_cons_of_mem _ (ih _ t ht)

/-- The emitted sub-stream inherits the no-keyword-pair chain: a dropped
token always leaves a punctuation token as the last emitted one, and
punctuation never opens a keyword pair. -/
theorem emitChainAux : ∀ (us : List Str) (st : St) (lastE : Option Str),
    List.Chain' noPair us →
    (∀ a, lastE = some a → ∀ hd, us.head? = some hd → noPair a hd) →
    (st.cur = [] → ∀ a, lastE = some a → PunctTok a) →
    List.Chain' noPair (optCons lastE (emitRun st us)) := by
  intro us
  induction us with
  | nil =>
    intro st lastE _ _ _
    rw [emitRun]
    cases lastE with
    | none => exact List.chain'_nil
    | some a => exact List.chain'_singleton a
  | cons t us' ih =>
    intro st lastE hchain hlink hpstate
    rw [emitRun, emitTok]
    by_cases hdrop : (t = [','] ∧ st.cur = []) ∨ (t = [';'] ∧ st.cur = [] ∧ st.lines = [])
    · rw [if_pos hdrop, List.nil_append]
      have hcur : st.cur = [] := by rcases hdrop with ⟨_, hc⟩ | ⟨_, hc, _⟩ <;> exact hc
      refine ih (stepTok st t) lastE hchain.tail ?_ ?_
      · intro a ha hd _
        exact noPair_left_punct (hpstate hcur a ha)
      · intro _ a ha
        exact hpstate hcur a ha
    · rw [if_neg hdrop, List.singleton_append]
      have hrest : List.Chain' noPair (optCons (some t) (emitRun (stepTok st t) us')) := by
        refine ih (stepTok st t) (some t) hchain.tail ?_ ?_
        · intro a ha hd hhd
          injection ha with ha
          subst ha
          exact (List.chain'_cons'.mp hchain).1 hd (Option.mem_def.mpr hhd)
        · intro hcur' a ha
          injection ha with ha
          subst ha
          exact stepCur_nil_punct hcur'
      cases lastE with
      | none => exact hrest
      | some a =>
        rw [optCons]
        exact List.chain'_cons.mpr ⟨hlink a rfl t rfl, hrest⟩

theorem emitRun_chain {us : List Str} (h : List.Chain' noPair us) :
    List.Chain' noPair (emitRun st0 us) :=
  emitChainAux us st0 none h (fun _ ha => Option.noConfusion ha)
    (fun _ _ ha => Option.noConfusion ha)

/-- A merged stream that passes the start check never opens with
commas-then-semicolon. -/
theorem startOK_badCommaSemi {ts : List Str} (h : startErrs ts = []) :
    badCommaSemi ts = false := by
  cases ts with
  | nil => rfl
  | cons t0 ts' =>
    rw [startErrs] at h
    split at h
    · rename_i hvs
      have h1 : t0 ≠ [','] := by
        intro he; subst he
        exact absurd hvs (by decide)
      have h2 : t0 ≠ [';'] := by
        intro he; subst he
        exact absurd hvs (by decide)
      rw [badCommaSemi, if_neg h1]
      simp [h2]
    · exact absurd h (by simp)

theorem formatAndCheck_fst (s : Str) :
    (formatAndCheck s).1 = formatTokens (mergeCompounds (tokenize (stripWs s))) := rfl

theorem formatAndCheck_snd (s : Str) :
    (formatAndCheck s).2 = checkSql (mergeCompounds (tokenize (stripWs s))) := rfl

/-- C3: formatting is idempotent — for every input that the checker
accepts without diagnostics, running `format_and_check` on the formatted
output of `format_and_check(s)` returns the very same formatted string:
uppercasing, compound merging, line breaking, indentation and
comma/semicolon attachment are all stable under re-application. -/
theorem C3_formatting_idempotent (s : Str) (h : (formatAndCheck s).2 = []) :
    (formatAndCheck (formatAndCheck s).1).1 = (formatAndCheck s).1 := by
  have hm := (mergeSpec (tokenize (stripWs s)) (tokenize_good (stripWs s))).1
  have hc := (mergeSpec (tokenize (stripWs s)) (tokenize_good (stripWs s))).2.1
  have hbad : badCommaSemi (mergeCompounds (tokenize (stripWs s))) = false := by
    apply startOK_badCommaSemi
    rw [formatAndCheck_snd] at h
    simp only [checkSql, List.append_eq_nil] at h
    exact h.1.1
  have hok : ∀ t ∈ mergeCompounds (tokenize (stripWs s)), HeadOK t :=
    fun t ht => MTokS_HeadOK (hm t ht)
  have hst0 : StOK st0 := by intro x hx; exact absurd hx (List.not_mem_nil x)
  have hnsd : NoSemiDrop st0 (mergeCompounds (tokenize (stripWs s))) :=
    noSemiDrop_aux _ st0 hok hst0 (Or.inr hbad)
  have hE := tokenize_formatTokens (mergeCompounds (tokenize (stripWs s)))
  have hstable :=
    merge_stable (emitRun st0 (mergeCompounds (tokenize (stripWs s))))
      (fun t ht => hm t (emitRun_sublist _ st0 t ht)) (emitRun_chain hc)
  have hfmt := formatTokens_emitRun (mergeCompounds (tokenize (stripWs s))) hnsd
  rw [formatAndCheck_fst, formatAndCheck_fst, tokenize_strip, hE, hstable, hfmt]

/-- Witness for C3: the accepted script `select a , b from t ;` formats
to `SELECT a,\nb\nFROM t;` and formatting that output again returns it
unchanged. -/
theorem C3_witness :
    (formatAndCheck (L "select a , b from t ;")).2 = [] ∧
    (formatAndCheck (formatAndCheck (L "select a , b from t ;")).1).1
      = (formatAndCheck (L "select a , b from t ;")).1 :=
  ⟨by decide, C3_formatting_idempotent _ (by decide)⟩

end SqlTester

